import Mathlib

/-!
# Verification of `topsort.go`

A shallow embedding of the generic directed graph of `topsort.go` (node and
edge insertion, subgraph extraction, depth-first topological sort with cycle
detection), followed by the properties proved about it.

Modelling conventions
* A Go `map[K]V` is an association list `GoMap K V`; `GoMap.find` is the
  two-valued read `v, ok := m[k]` and `GoMap.put` is the write `m[k] = v`.
* The order in which `range` walks a map is unspecified in Go and may differ
  from one loop to the next.  Every walk of a map takes its order from a
  `RangeOrder`: the `tick`-th walk of the run enumerates the keys in the order
  `ρ.order tick keys`, an arbitrary permutation of the key set.  The tick is
  threaded through the state and advanced at every walk.
* Pointer receivers that are mutated (`*Graph`, `*orderedset`, the `visited`
  map) become explicit state passing.
* Recursion is bounded by a fuel argument; `none` means that no value was
  returned (the budget ran out, or a slice expression was out of range).
-/

namespace Topsort

/-! ## Go maps -/

/-- A Go map as an association list; the first binding of a key is the live one. -/
abbrev GoMap (K V : Type) := List (K × V)

namespace GoMap

variable {K V : Type} [DecidableEq K]

/-- The read `v, ok := m[k]`. -/
def find : GoMap K V → K → Option V
  | [], _ => none
  | (k', v) :: m, k => if k' = k then some v else find m k

/-- The write `m[k] = v`: overwrite the binding of `k`, or add one. -/
def put : GoMap K V → K → V → GoMap K V
  | [], k, v => [(k, v)]
  | (k', v') :: m, k, v => if k' = k then (k, v) :: m else (k', v') :: put m k v

/-- The keys of the map. -/
def keys (m : GoMap K V) : List K := m.map Prod.fst

end GoMap

/-- The order of a `range` over a map: the `tick`-th walk of a run yields
`order tick keys`, some permutation of the keys. -/
structure RangeOrder (Key : Type) where
  order : Nat → List Key → List Key
  perm : ∀ tick keys, (order tick keys).Perm keys

/-- The walk that yields the keys as they are stored. -/
def RangeOrder.stored (Key : Type) : RangeOrder Key :=
  ⟨fun _ keys => keys, fun _ _ => List.Perm.refl _⟩

/-- The walk that yields the keys in the reverse of the stored order. -/
def RangeOrder.reversed (Key : Type) : RangeOrder Key :=
  ⟨fun _ keys => keys.reverse, fun _ keys => List.reverse_perm keys⟩

/-! ## `Node` -/

/-- Source: `type Node[Key comparable] map[Key]bool`. -/
abbrev Node (Key : Type) := GoMap Key Bool

/-- Source: `func (n Node[Key]) addEdge(key Key)`. -/
def Node.addEdge {Key : Type} [DecidableEq Key] (n : Node Key) (key : Key) : Node Key :=
  GoMap.put n key true

/-- Source: `func (n Node[Key]) edges() []Key`, the keys of the map in the
order of the `tick`-th walk. -/
def Node.edges {Key : Type} (ρ : RangeOrder Key) (tick : Nat) (n : Node Key) : List Key :=
  ρ.order tick (GoMap.keys n)

/-! ## `orderedset` -/

/-- Source: `type orderedset[Key comparable] struct`. -/
structure orderedset (Key : Type) where
  indexes : GoMap Key Int
  items : List Key
  length : Int

/-- Source: `func newOrderedSet`. -/
def newOrderedSet (Key : Type) : orderedset Key :=
  { indexes := [], items := [], length := 0 }

namespace orderedset

variable {Key : Type} [DecidableEq Key]

/-- Source: `func (s *orderedset[Key]) add(item Key) bool`; returns the
updated set and the boolean result. -/
def add (s : orderedset Key) (item : Key) : orderedset Key × Bool :=
  match GoMap.find s.indexes item with
  | some _ => (s, false)
  | none =>
    ({ indexes := GoMap.put s.indexes item s.length
       items := s.items ++ [item]
       length := s.length + 1 }, true)

/-- Source: `func (s *orderedset[Key]) copy() *orderedset[Key]`. -/
def copy (s : orderedset Key) : orderedset Key :=
  s.items.foldl (fun clone item => (clone.add item).1) (newOrderedSet Key)

/-- Source: `func (s *orderedset[Key]) index(item Key) int`. -/
def index (s : orderedset Key) (item : Key) : Int :=
  match GoMap.find s.indexes item with
  | some index => index
  | none => -1

/-- The representation invariant of `orderedset`: `length` is the number of
items, no item occurs twice, and `indexes` maps exactly the items, each to its
position. -/
def Inv (s : orderedset Key) : Prop :=
  s.length = (s.items.length : Int) ∧ s.items.Nodup ∧
    ∀ k i, GoMap.find s.indexes k = some i ↔ ∃ n : Nat, i = (n : Int) ∧ s.items.get? n = some k

end orderedset

/-! ## `Graph` -/

/-- Source: `type Graph[Key comparable] struct`. -/
structure Graph (Key : Type) where
  Nodes : GoMap Key (Node Key)
  deriving DecidableEq, Repr

/-- Source: `func NewGraph`. -/
def NewGraph (Key : Type) : Graph Key := { Nodes := [] }

/-- The error value built by `fmt.Errorf` in `visit`: the key sequence `cycle`
and the message it is joined into. -/
structure CycleError (Key : Type) where
  cycle : List Key
  msg : String
  deriving DecidableEq, Repr

/-- A loop `for _, edge := range edges` whose body may fail to return (`none`)
or return an error, which ends the loop. -/
def forEdges {Key σ ε : Type} (body : Key → σ → Option (Except ε σ)) :
    List Key → σ → Option (Except ε σ)
  | [], st => some (.ok st)
  | edge :: rest, st =>
    match body edge st with
    | some (.ok st') => forEdges body rest st'
    | some (.error err) => some (.error err)
    | none => none

/-- A loop `for _, edge := range edges` whose body cannot return an error. -/
def forEach {Key σ : Type} (body : Key → σ → Option σ) : List Key → σ → Option σ
  | [], st => some st
  | edge :: rest, st =>
    match body edge st with
    | some st' => forEach body rest st'
    | none => none

namespace Graph

variable {Key : Type} [DecidableEq Key]

/-- Source: `func (g *Graph[Key]) ContainsNode(key Key) bool`. -/
def ContainsNode (g : Graph Key) (key : Key) : Bool :=
  (GoMap.find g.Nodes key).isSome

/-- Source: `func (g *Graph[Key]) AddNode(key Key)`. -/
def AddNode (g : Graph Key) (key : Key) : Graph Key :=
  if !g.ContainsNode key then { Nodes := GoMap.put g.Nodes key [] } else g

/-- Source: `func (g *Graph[Key]) getOrAddNode(node Key) Node[Key]`; returns
the updated graph and the node. -/
def getOrAddNode (g : Graph Key) (node : Key) : Graph Key × Node Key :=
  match GoMap.find g.Nodes node with
  | some n => (g, n)
  | none => ({ Nodes := GoMap.put g.Nodes node [] }, [])

/-- Source: `func (g *Graph[Key]) AddEdge(from Key, to Key) error`.  The map
`f` is shared with `g.Nodes[from]` (`AddNode` never replaces a binding), so the
write `f.addEdge(to)` is a write to `g.Nodes[from]`.  The second component is
the returned error, always `nil`. -/
def AddEdge (g : Graph Key) (from_ to_ : Key) : Graph Key × Option (CycleError Key) :=
  let (g, f) := g.getOrAddNode from_
  let g := g.AddNode to_
  ({ Nodes := GoMap.put g.Nodes from_ (Node.addEdge f to_) }, none)

/-- Source: `func (g *Graph[Key]) AddEdges(from Key, keys []Key) error`. -/
def AddEdges (g : Graph Key) (from_ : Key) : List Key → Graph Key × Option (CycleError Key)
  | [] => (g, none)
  | to_ :: keys =>
    match g.AddEdge from_ to_ with
    | (g, some err) => (g, some err)
    | (g, none) => AddEdges g from_ keys

/-- The read `g.Nodes[key]`, the empty (nil) node when `key` is absent. -/
def node (g : Graph Key) (key : Key) : Node Key :=
  (GoMap.find g.Nodes key).getD []

/-- The read `visited[key]` of a `map[Key]bool`, `false` when `key` is absent. -/
def isVisited (visited : GoMap Key Bool) (key : Key) : Bool :=
  (GoMap.find visited key).getD false

/-- Source: `func addNodesToTempGraph(graph, visited, tempGraph, node)`.  The
state is the tick of the next map walk, the `visited` map and `tempGraph`;
`graph` is only read (a read of an absent key does not insert it), so it is
not part of the state. -/
def addNodesToTempGraph (ρ : RangeOrder Key) (graph : Graph Key) :
    Nat → Nat × GoMap Key Bool × Graph Key → Key → Option (Nat × GoMap Key Bool × Graph Key)
  | 0, _, _ => none
  | fuel + 1, (tick, visited, tempGraph), node =>
    if isVisited visited node then
      some (tick, visited, tempGraph)
    else
      let visited := GoMap.put visited node true
      let tempGraph := tempGraph.AddNode node
      forEach
        (fun edge st =>
          if !isVisited st.2.1 edge then
            addNodesToTempGraph ρ graph fuel (st.1, st.2.1, (st.2.2.AddEdge node edge).1) edge
          else some st)
        (Node.edges ρ tick (graph.node node)) (tick + 1, visited, tempGraph)

/-- Every key that occurs in the graph, as a node or as a successor. -/
def allKeys (g : Graph Key) : List Key :=
  g.Nodes.flatMap (fun entry => entry.1 :: GoMap.keys entry.2)

/-- A recursion budget that no traversal of `g` exceeds. -/
def budget (g : Graph Key) : Nat := g.allKeys.length + 2

/-- Source: `func (g *Graph[Key]) SubgraphFromTarget(target Key) *Graph[Key]`. -/
def SubgraphFromTarget (ρ : RangeOrder Key) (g : Graph Key) (target : Key) :
    Option (Graph Key) :=
  let tempGraph := NewGraph Key
  let visited : GoMap Key Bool := []
  match addNodesToTempGraph ρ g g.budget (0, visited, tempGraph) target with
  | some (_, _, tempGraph) => some tempGraph
  | none => none

/-- Source: `func (g *Graph[Key]) SubgraphFromTargets(targets []Key) *Graph[Key]`. -/
def SubgraphFromTargets (ρ : RangeOrder Key) (g : Graph Key) (targets : List Key) :
    Option (Graph Key) :=
  let tempGraph := NewGraph Key
  let visited : GoMap Key Bool := []
  match forEach (fun target st => addNodesToTempGraph ρ g g.budget st target) targets
      (0, visited, tempGraph) with
  | some (_, _, tempGraph) => some tempGraph
  | none => none

/-- Source: `func (g *Graph[Key]) visit(key, results, visited) error`.  The
state is the tick of the next map walk and `results`; `visited` is `none` for
the nil pointer.  The slice `visited.items[index:]` returns no value when
`index` is out of range. -/
def visit [ToString Key] (ρ : RangeOrder Key) (g : Graph Key) :
    Nat → Key → Nat × orderedset Key → Option (orderedset Key) →
      Option (Except (CycleError Key) (Nat × orderedset Key))
  | 0, _, _, _ => none
  | fuel + 1, key, (tick, results), visited =>
    let visited := match visited with
      | none => newOrderedSet Key
      | some visited => visited
    let (visited, added) := visited.add key
    if !added then
      let index := visited.index key
      if index < 0 ∨ (visited.items.length : Int) < index then none
      else
        let cycle := visited.items.drop index.toNat ++ [key]
        let strs := cycle.map toString
        some (.error ⟨cycle, "Cycle error: " ++ " -> ".intercalate strs⟩)
    else
      let n := g.node key
      match forEdges (fun edge st => visit ρ g fuel edge st (some visited.copy))
          (Node.edges ρ tick n) (tick + 1, results) with
      | some (.ok (tick, results)) => some (.ok (tick, (results.add key).1))
      | some (.error err) => some (.error err)
      | none => none

/-- Source: `func (g *Graph[Key]) TopSort(key Key) ([]Key, error)`; the pair
of the returned slice (`none` for nil) and the returned error. -/
def TopSort [ToString Key] (ρ : RangeOrder Key) (g : Graph Key) (key : Key) :
    Option (Option (List Key) × Option (CycleError Key)) :=
  let results := newOrderedSet Key
  match visit ρ g (g.budget) key (0, results) none with
  | some (.error err) => some (none, some err)
  | some (.ok (_, results)) => some (some results.items, none)
  | none => none

/-! ## Vocabulary of the specification -/

/-- The edge `u -> v` exists in `g`: `v` is a key of the successor set of `u`. -/
def Edge (g : Graph Key) (u v : Key) : Prop := v ∈ GoMap.keys (g.node u)

instance (g : Graph Key) (u v : Key) : Decidable (g.Edge u v) := by
  unfold Edge; infer_instance

/-- The key `v` is reachable from `u` by one or more edges. -/
def Reachable (g : Graph Key) (u v : Key) : Prop := Relation.TransGen g.Edge u v

/-- The key `v` is `u` or reachable from `u`. -/
def ReachableOrEq (g : Graph Key) (u v : Key) : Prop := Relation.ReflTransGen g.Edge u v

/-- Some directed cycle (a self-loop included) is reachable from `key`. -/
def CycleReachable (g : Graph Key) (key : Key) : Prop :=
  ∃ c, g.ReachableOrEq key c ∧ g.Reachable c c

/-- The key `v` stands at a strictly smaller index than `u` in `l`. -/
def Before (l : List Key) (v u : Key) : Prop :=
  v ∈ l ∧ u ∈ l ∧ l.indexOf v < l.indexOf u

instance (l : List Key) (v u : Key) : Decidable (Before l v u) := by
  unfold Before; infer_instance

/-- A key sequence is a closed walk of `g`: at least two keys, the same key at
both ends, and every consecutive pair an edge of `g`. -/
def IsCycleOf (g : Graph Key) (c : List Key) : Prop :=
  2 ≤ c.length ∧ c.head? = c.getLast? ∧
    ∀ i x y, c.get? i = some x → c.get? (i + 1) = some y → g.Edge x y

/-! ## Sample graphs -/

/-- The chain with the edges `A -> B` and `B -> C`. -/
def chainABC : Graph String :=
  (((NewGraph String).AddEdge "A" "B").1.AddEdge "B" "C").1

/-- The two-cycle with the edges `A -> B` and `B -> A`. -/
def cycleAB : Graph String :=
  (((NewGraph String).AddEdge "A" "B").1.AddEdge "B" "A").1

/-- The diamond with the edges `A -> B`, `A -> C`, `B -> D` and `C -> D`. -/
def diamond : Graph String :=
  (((((NewGraph String).AddEdge "A" "B").1.AddEdge "A" "C").1.AddEdge "B" "D").1.AddEdge "C" "D").1

/-- The single edge `A -> B`. -/
def edgeAB : Graph String := ((NewGraph String).AddEdge "A" "B").1

/-- A rank that decreases along the edges of the sample graphs. -/
def sampleRank (k : String) : Nat :=
  if k = "A" then 3 else if k = "B" then 2 else if k = "C" then 1 else 0

/-! ## Auxiliary definitions of the proofs -/

/-- The traversal of `visit` on plain sequences: `path` stands for
`visited.items` and the state carries `results.items`. -/
def visitSeq (ρ : RangeOrder Key) (g : Graph Key) :
    Nat → Key → Nat × List Key → List Key → Option (Except (List Key) (Nat × List Key))
  | 0, _, _, _ => none
  | fuel + 1, key, (tick, results), path =>
    if key ∈ path then some (.error (path.drop (path.indexOf key) ++ [key]))
    else
      match forEdges (fun edge st => visitSeq ρ g fuel edge st (path ++ [key]))
          (Node.edges ρ tick (g.node key)) (tick + 1, results) with
      | some (.ok (tick, results)) =>
        some (.ok (tick, if key ∈ results then results else results ++ [key]))
      | some (.error cycle) => some (.error cycle)
      | none => none

/-- The outcome of `visit` agrees with the outcome of `visitSeq`. -/
def Refines [ToString Key] :
    Option (Except (CycleError Key) (Nat × orderedset Key)) →
      Option (Except (List Key) (Nat × List Key)) → Prop
  | none, none => True
  | some (.error err), some (.error cycle) =>
    err.cycle = cycle ∧ err.msg = "Cycle error: " ++ " -> ".intercalate (cycle.map toString)
  | some (.ok (tick, results)), some (.ok (tick', items)) =>
    tick = tick' ∧ results.items = items ∧ results.Inv
  | _, _ => False

/-- How a run of `addNodesToTempGraph` steps takes the `visited` map and the
`tempGraph` from `V`, `T` to `V'`, `T'`: it visits the keys `roots` and keys
reachable from them, and every newly visited key that is not `pending` has all
its successors visited. -/
structure Grown (g : Graph Key) (roots pending : Key → Prop)
    (V : GoMap Key Bool) (T : Graph Key) (V' : GoMap Key Bool) (T' : Graph Key) : Prop where
  mono : ∀ k, isVisited V k = true → isVisited V' k = true
  covers : ∀ r, roots r → isVisited V' r = true
  sound : ∀ k, isVisited V' k = true →
    isVisited V k = true ∨ ∃ r, roots r ∧ g.ReachableOrEq r k
  closed : ∀ u, isVisited V' u = true →
    isVisited V u = true ∨ pending u ∨ ∀ v, g.Edge u v → isVisited V' v = true
  nodes : ∀ k, T'.ContainsNode k = true ↔
    T.ContainsNode k = true ∨ (isVisited V' k = true ∧ isVisited V k = false)
  edgesSound : ∀ u v, T'.Edge u v → T.Edge u v ∨
    (g.Edge u v ∧ isVisited V' u = true ∧ isVisited V u = false ∧
      isVisited V' v = true ∧ isVisited V v = false)
  edgesMono : ∀ u v, T.Edge u v → T'.Edge u v
  spanning : ∀ v, isVisited V' v = true → isVisited V v = false →
    roots v ∨ ∃ u, isVisited V' u = true ∧ isVisited V u = false ∧ g.Edge u v ∧ T'.Edge u v

/-- Successors come first: every key of `l` has all its successors before it. -/
def SuccFirst (g : Graph Key) (l : List Key) : Prop :=
  ∀ a u b, l = a ++ u :: b → ∀ v, g.Edge u v → v ∈ a

/-! ## Vocabulary of the later claims -/

/-- The closure invariant: every key of a successor set is itself a node. -/
def Closed (g : Graph Key) : Prop := ∀ u v, g.Edge u v → g.ContainsNode v = true

/-- A mutating call of the public interface. -/
inductive Call (Key : Type) where
  | addNode (key : Key)
  | addEdge (from_ to_ : Key)
  | addEdges (from_ : Key) (keys : List Key)

/-- The graph after one call. -/
def perform (g : Graph Key) : Call Key → Graph Key
  | .addNode key => g.AddNode key
  | .addEdge from_ to_ => (g.AddEdge from_ to_).1
  | .addEdges from_ keys => (g.AddEdges from_ keys).1

/-- The graph after a sequence of calls, first call first. -/
def performAll (g : Graph Key) (calls : List (Call Key)) : Graph Key :=
  calls.foldl perform g

/-- The wording of the specification for `AddEdges`: `AddEdge(from, k)` is
called for each `k` of `keys`, in list order. -/
def AddEdgesOneByOne (g : Graph Key) (from_ : Key) (keys : List Key) : Graph Key :=
  keys.foldl (fun g to_ => (g.AddEdge from_ to_).1) g

/-- The number of nodes, `len(g.Nodes)`. -/
def numNodes (g : Graph Key) : Nat := (GoMap.keys g.Nodes).dedup.length

/-- The shape of the `visited` map and the `tempGraph` during an extraction: the
edges of `T` lead from a visited key to a key that is visited later (or is the
`pending` key, about to be visited), and no key has two incoming edges.  The
keys of `V` stand in the order in which they were visited. -/
structure Forest (pending : Key → Prop) (V : GoMap Key Bool) (T : Graph Key) : Prop where
  allTrue : ∀ k b, (k, b) ∈ V → b = true
  src : ∀ u v, T.Edge u v → u ∈ GoMap.keys V
  tgt : ∀ u v, T.Edge u v → v ∈ GoMap.keys V ∨ pending v
  order : ∀ u v, T.Edge u v → v ∈ GoMap.keys V →
    (GoMap.keys V).indexOf u < (GoMap.keys V).indexOf v
  unique : ∀ u u' v, T.Edge u v → T.Edge u' v → u = u'

end Graph

/-! ## Sequences of operations on an `orderedset` -/

/-- An operation on an `orderedset`. -/
inductive SetOp (Key : Type) where
  | add (item : Key)
  | copy

/-- The ordered set after one operation: `add` keeps the updated receiver,
`copy` goes on with the clone. -/
def applySetOp {Key : Type} [DecidableEq Key] (s : orderedset Key) :
    SetOp Key → orderedset Key
  | .add item => (s.add item).1
  | .copy => s.copy

/-- The ordered set after a sequence of operations, first operation first. -/
def applySetOps {Key : Type} [DecidableEq Key] (s : orderedset Key)
    (ops : List (SetOp Key)) : orderedset Key :=
  ops.foldl applySetOp s

end Topsort

/-! ## Lemmas on Go maps -/

namespace Topsort

namespace GoMap

variable {K V : Type} [DecidableEq K]

theorem find_put (m : GoMap K V) (k k' : K) (v : V) :
    find (put m k v) k' = if k = k' then some v else find m k' := by
  induction m with
  | nil => simp [put, find]
  | cons hd tl ih =>
    obtain ⟨a, b⟩ := hd
    by_cases h : a = k
    · subst h
      by_cases h' : a = k' <;> simp [put, find, h']
    · by_cases h' : a = k'
      · subst h'
        simp [put, find, h, Ne.symm h]
      · simp [put, find, h, h', ih]

theorem keys_put (m : GoMap K V) (k : K) (v : V) :
    keys (put m k v) = if k ∈ keys m then keys m else keys m ++ [k] := by
  induction m with
  | nil => simp [put, keys]
  | cons hd tl ih =>
    obtain ⟨a, b⟩ := hd
    by_cases h : a = k
    · subst h
      simp [put, keys]
    · have ih' := ih
      simp only [keys] at ih'
      by_cases hk : k ∈ List.map Prod.fst tl
      · simp [put, keys, h, hk, ih', Ne.symm h]
      · simp [put, keys, h, hk, ih', Ne.symm h]

theorem find_eq_none_iff (m : GoMap K V) (k : K) : find m k = none ↔ k ∉ keys m := by
  induction m with
  | nil => simp [find, keys]
  | cons hd tl ih =>
    obtain ⟨a, b⟩ := hd
    by_cases h : a = k
    · subst h
      simp [find, keys]
    · simp only [keys] at ih
      simp [find, keys, h, ih, Ne.symm h]

theorem find_isSome_iff (m : GoMap K V) (k : K) : (find m k).isSome = true ↔ k ∈ keys m := by
  have := find_eq_none_iff m k
  cases h : find m k <;> simp_all

theorem mem_of_find (m : GoMap K V) (k : K) (v : V) (h : find m k = some v) : (k, v) ∈ m := by
  induction m with
  | nil => simp [find] at h
  | cons hd tl ih =>
    obtain ⟨a, b⟩ := hd
    by_cases h' : a = k
    · subst h'
      simp [find] at h
      simp [h]
    · simp [find, h'] at h
      exact List.mem_cons_of_mem _ (ih h)

theorem put_eq_self (m : GoMap K V) (k : K) (v : V) (h : find m k = some v) : put m k v = m := by
  induction m with
  | nil => simp [find] at h
  | cons hd tl ih =>
    obtain ⟨a, b⟩ := hd
    by_cases h' : a = k
    · subst h'
      simp [find] at h
      simp [put, h]
    · simp [find, h'] at h
      simp [put, h', ih h]

end GoMap

end Topsort

/-! ## Lemmas on `orderedset` -/

namespace Topsort

namespace orderedset

variable {Key : Type} [DecidableEq Key]

theorem inv_new : (newOrderedSet Key).Inv := by
  refine ⟨rfl, List.nodup_nil, ?_⟩
  intro k i
  simp [newOrderedSet, GoMap.find]

theorem indexes_eq_none_iff {s : orderedset Key} (h : s.Inv) (k : Key) :
    GoMap.find s.indexes k = none ↔ k ∉ s.items := by
  obtain ⟨_, _, h3⟩ := h
  constructor
  · intro hn hmem
    obtain ⟨n, hn'⟩ := List.get?_of_mem hmem
    have := (h3 k n).2 ⟨n, rfl, hn'⟩
    rw [hn] at this
    exact Option.noConfusion this
  · intro hk
    cases hf : GoMap.find s.indexes k with
    | none => rfl
    | some i =>
      obtain ⟨n, _, hn⟩ := (h3 k i).1 hf
      exact absurd (List.get?_mem hn) hk

theorem add_items {s : orderedset Key} (h : s.Inv) (k : Key) :
    (s.add k).1.items = if k ∈ s.items then s.items else s.items ++ [k] := by
  unfold add
  cases hf : GoMap.find s.indexes k with
  | none =>
    have := (indexes_eq_none_iff h k).1 hf
    simp [this]
  | some i =>
    have : k ∈ s.items := by
      by_contra hk
      rw [(indexes_eq_none_iff h k).2 hk] at hf
      exact Option.noConfusion hf
    simp [this]

theorem add_snd {s : orderedset Key} (h : s.Inv) (k : Key) :
    (s.add k).2 = true ↔ k ∉ s.items := by
  unfold add
  cases hf : GoMap.find s.indexes k with
  | none =>
    have := (indexes_eq_none_iff h k).1 hf
    simp [this]
  | some i =>
    have : k ∈ s.items := by
      by_contra hk
      rw [(indexes_eq_none_iff h k).2 hk] at hf
      exact Option.noConfusion hf
    simp [this]

theorem add_inv {s : orderedset Key} (h : s.Inv) (k : Key) : (s.add k).1.Inv := by
  unfold add
  cases hf : GoMap.find s.indexes k with
  | some i => exact h
  | none =>
    have hk := (indexes_eq_none_iff h k).1 hf
    obtain ⟨h1, h2, h3⟩ := h
    refine ⟨?_, ?_, ?_⟩
    · simp [h1]
    · simp only
      rw [List.nodup_append]
      refine ⟨h2, List.nodup_singleton k, ?_⟩
      intro x hx hx'
      rw [List.mem_singleton] at hx'
      exact hk (hx' ▸ hx)
    · intro k' i
      simp only [GoMap.find_put]
      by_cases hkk : k = k'
      · subst hkk
        simp only [if_true, Option.some.injEq]
        constructor
        · intro hi
          refine ⟨s.items.length, by rw [← hi, h1], ?_⟩
          simp [List.get?_eq_getElem?]
        · rintro ⟨n, hn, hget⟩
          rw [List.get?_eq_getElem?, List.getElem?_append] at hget
          by_cases hlt : n < s.items.length
          · rw [if_pos hlt] at hget
            exact absurd (List.getElem?_mem hget) hk
          · rw [if_neg hlt] at hget
            have : n - s.items.length = 0 := by
              by_contra hne
              have : [k][n - s.items.length]? = none := by
                apply List.getElem?_eq_none
                simp; omega
              rw [this] at hget
              exact Option.noConfusion hget
            rw [h1, hn]
            have : n = s.items.length := by omega
            rw [this]
      · simp only [if_neg hkk]
        rw [h3 k' i]
        constructor
        · rintro ⟨n, hn, hget⟩
          refine ⟨n, hn, ?_⟩
          rw [List.get?_eq_getElem?] at hget ⊢
          have hlt : n < s.items.length := by
            by_contra hge
            rw [List.getElem?_eq_none (by omega)] at hget
            exact Option.noConfusion hget
          rw [List.getElem?_append, if_pos hlt]
          exact hget
        · rintro ⟨n, hn, hget⟩
          refine ⟨n, hn, ?_⟩
          rw [List.get?_eq_getElem?] at hget ⊢
          rw [List.getElem?_append] at hget
          by_cases hlt : n < s.items.length
          · rw [if_pos hlt] at hget
            exact hget
          · rw [if_neg hlt] at hget
            have hm := List.getElem?_mem hget
            rw [List.mem_singleton] at hm
            exact absurd hm.symm hkk

end orderedset

end Topsort

namespace Topsort

namespace orderedset

variable {Key : Type} [DecidableEq Key]

theorem foldl_add (l : List Key) : ∀ acc : orderedset Key, acc.Inv → (acc.items ++ l).Nodup →
    (l.foldl (fun clone item => (clone.add item).1) acc).items = acc.items ++ l ∧
      (l.foldl (fun clone item => (clone.add item).1) acc).Inv := by
  induction l with
  | nil => intro acc h _; simpa using h
  | cons x l ih =>
    intro acc h hnd
    have hx : x ∉ acc.items := by
      intro hx
      have := (List.nodup_append.1 hnd).2.2
      exact this hx (List.mem_cons_self x l)
    have hitems : (acc.add x).1.items = acc.items ++ [x] := by
      rw [add_items h, if_neg hx]
    have hnd' : ((acc.add x).1.items ++ l).Nodup := by
      rw [hitems, List.append_assoc]
      exact hnd
    obtain ⟨h1, h2⟩ := ih (acc.add x).1 (add_inv h x) hnd'
    refine ⟨?_, h2⟩
    rw [List.foldl_cons, h1, hitems, List.append_assoc]
    rfl

theorem copy_items {s : orderedset Key} (h : s.Inv) : s.copy.items = s.items := by
  have := (foldl_add s.items (newOrderedSet Key) inv_new (by simpa [newOrderedSet] using h.2.1)).1
  simpa [copy, newOrderedSet] using this

theorem copy_inv {s : orderedset Key} (h : s.Inv) : s.copy.Inv :=
  (foldl_add s.items (newOrderedSet Key) inv_new (by simpa [newOrderedSet] using h.2.1)).2

theorem index_of_mem {s : orderedset Key} (h : s.Inv) {k : Key} (hk : k ∈ s.items) :
    s.index k = (s.items.indexOf k : Int) := by
  obtain ⟨_, h2, h3⟩ := h
  have hget : s.items.get? (s.items.indexOf k) = some k := List.indexOf_get? hk
  have := (h3 k (s.items.indexOf k)).2 ⟨_, rfl, hget⟩
  simp [index, this]

theorem index_of_not_mem {s : orderedset Key} (h : s.Inv) {k : Key} (hk : k ∉ s.items) :
    s.index k = -1 := by
  simp [index, (indexes_eq_none_iff h k).2 hk]

end orderedset

end Topsort

/-! ## `visit` refines the traversal on sequences -/

namespace Topsort

namespace Graph

variable {Key : Type} [DecidableEq Key]

theorem visit_nil [ToString Key] (ρ : RangeOrder Key) (g : Graph Key) (fuel : Nat) (key : Key)
    (st : Nat × orderedset Key) :
    visit ρ g fuel key st none = visit ρ g fuel key st (some (newOrderedSet Key)) := by
  cases fuel <;> rfl

theorem forEdges_refines [ToString Key]
    (body : Key → Nat × orderedset Key → Option (Except (CycleError Key) (Nat × orderedset Key)))
    (body' : Key → Nat × List Key → Option (Except (List Key) (Nat × List Key)))
    (es : List Key)
    (hbody : ∀ e tick res, res.Inv → Refines (body e (tick, res)) (body' e (tick, res.items))) :
    ∀ tick res, res.Inv →
      Refines (forEdges body es (tick, res)) (forEdges body' es (tick, res.items)) := by
  induction es with
  | nil => intro tick res h; exact ⟨rfl, rfl, h⟩
  | cons e es ih =>
    intro tick res h
    have hb := hbody e tick res h
    simp only [forEdges]
    rcases h1 : body e (tick, res) with _ | (err | ⟨t1, r1⟩) <;>
      rcases h2 : body' e (tick, res.items) with _ | (c | ⟨t2, l2⟩) <;>
      rw [h1, h2] at hb <;> simp only [Refines] at hb <;> try exact hb.elim
    · trivial
    · exact hb
    · obtain ⟨rfl, rfl, hinv⟩ := hb
      exact ih t1 r1 hinv

theorem visit_refines [ToString Key] (ρ : RangeOrder Key) (g : Graph Key) (fuel : Nat) :
    ∀ (key : Key) (tick : Nat) (res vis : orderedset Key), res.Inv → vis.Inv →
      Refines (visit ρ g fuel key (tick, res) (some vis))
        (visitSeq ρ g fuel key (tick, res.items) vis.items) := by
  induction fuel with
  | zero => intro key tick res vis _ _; trivial
  | succ fuel ih =>
    intro key tick res vis hres hvis
    have hitems := orderedset.add_items hvis key
    have hsnd := orderedset.add_snd hvis key
    have hinv := orderedset.add_inv hvis key
    simp only [visit, visitSeq]
    rcases hadd : vis.add key with ⟨v', added⟩
    rw [hadd] at hitems hsnd hinv
    simp only at hitems hsnd hinv ⊢
    by_cases hk : key ∈ vis.items
    · have hadded : added = false := by
        cases added
        · rfl
        · exact absurd hk (hsnd.1 rfl)
      rw [if_pos hk] at hitems
      have hk' : key ∈ v'.items := hitems ▸ hk
      have hidx := orderedset.index_of_mem hinv hk'
      rw [hitems] at hidx
      have hle : vis.items.indexOf key ≤ vis.items.length := List.indexOf_le_length
      simp only [hadded, Bool.not_false, if_true, if_pos hk, hidx, hitems]
      rw [if_neg (by omega)]
      simp [Refines]
    · have hadded : added = true := hsnd.2 hk
      rw [if_neg hk] at hitems
      have hcopy := orderedset.copy_items hinv
      have hcinv := orderedset.copy_inv hinv
      rw [hitems] at hcopy
      simp only [hadded, Bool.not_true, if_neg hk]
      have hloop := forEdges_refines
        (fun edge st => visit ρ g fuel edge st (some v'.copy))
        (fun edge st => visitSeq ρ g fuel edge st (vis.items ++ [key]))
        (Node.edges ρ tick (g.node key))
        (fun e t r hr => by
          have := ih e t r v'.copy hr hcinv
          rw [hcopy] at this
          exact this)
        (tick + 1) res hres
      rcases h1 : forEdges (fun edge st => visit ρ g fuel edge st (some v'.copy))
          (Node.edges ρ tick (g.node key)) (tick + 1, res) with _ | (err | ⟨t1, r1⟩) <;>
        rcases h2 : forEdges (fun edge st => visitSeq ρ g fuel edge st (vis.items ++ [key]))
          (Node.edges ρ tick (g.node key)) (tick + 1, res.items) with _ | (c | ⟨t2, l2⟩) <;>
        rw [h1, h2] at hloop <;> simp only [Refines] at hloop <;> try exact hloop.elim
      · trivial
      · simpa [Refines] using hloop
      · obtain ⟨rfl, rfl, hr1⟩ := hloop
        simp only [Refines]
        exact ⟨rfl, orderedset.add_items hr1 key, orderedset.add_inv hr1 key⟩

end Graph

end Topsort

/-! ## Loops, and a successful visit excludes a reachable cycle -/

namespace Topsort
variable {Key : Type}

theorem forEdges_ok_rule {σ ε : Type} (body : Key → σ → Option (Except ε σ))
    (M : Key → Prop) (I : List Key → σ → Prop)
    (hstep : ∀ d e s s', I d s → M e → body e s = some (.ok s') → I (d ++ [e]) s')
    (es : List Key) : ∀ (d : List Key) (st st' : σ), (∀ e ∈ es, M e) → I d st →
      forEdges body es st = some (.ok st') → I (d ++ es) st' := by
  induction es with
  | nil =>
    intro d st st' _ hI h
    simp only [forEdges, Option.some.injEq, Except.ok.injEq] at h
    subst h
    simpa using hI
  | cons e es ih =>
    intro d st st' hM hI h
    simp only [forEdges] at h
    rcases hb : body e st with _ | (err | s1) <;> rw [hb] at h
    · exact Option.noConfusion h
    · simp at h
    · simp only at h
      have := ih (d ++ [e]) s1 st' (fun x hx => hM x (List.mem_cons_of_mem _ hx))
        (hstep d e st s1 hI (hM e (List.mem_cons_self _ _)) hb) h
      simpa using this

theorem forEdges_error {σ ε : Type} (body : Key → σ → Option (Except ε σ))
    (es : List Key) : ∀ (st : σ) (err : ε), forEdges body es st = some (.error err) →
      ∃ e ∈ es, ∃ s, body e s = some (.error err) := by
  induction es with
  | nil => intro st err h; simp [forEdges] at h
  | cons e es ih =>
    intro st err h
    simp only [forEdges] at h
    rcases hb : body e st with _ | (err1 | s1) <;> rw [hb] at h
    · exact Option.noConfusion h
    · simp only [Option.some.injEq, Except.error.injEq] at h
      subst h
      exact ⟨e, List.mem_cons_self _ _, st, hb⟩
    · simp only at h
      obtain ⟨e', he', s, hs⟩ := ih s1 err h
      exact ⟨e', List.mem_cons_of_mem _ he', s, hs⟩

theorem forEdges_some {σ ε : Type} (body : Key → σ → Option (Except ε σ))
    (es : List Key) (hbody : ∀ e ∈ es, ∀ s, ∃ r, body e s = some r) :
    ∀ st : σ, ∃ r, forEdges body es st = some r := by
  induction es with
  | nil => intro st; exact ⟨_, rfl⟩
  | cons e es ih =>
    intro st
    obtain ⟨r, hr⟩ := hbody e (List.mem_cons_self _ _) st
    simp only [forEdges, hr]
    rcases r with err | s1
    · exact ⟨_, rfl⟩
    · exact ih (fun x hx => hbody x (List.mem_cons_of_mem _ hx)) s1

namespace Graph
variable [DecidableEq Key]

theorem mem_edges (ρ : RangeOrder Key) (g : Graph Key) (tick : Nat) (u v : Key) :
    v ∈ Node.edges ρ tick (g.node u) ↔ g.Edge u v :=
  (ρ.perm tick (GoMap.keys (g.node u))).mem_iff

theorem not_cycleReachable_of_succ (g : Graph Key) (key : Key)
    (h : ∀ e, g.Edge key e → ¬ g.CycleReachable e) : ¬ g.CycleReachable key := by
  rintro ⟨c, hkc, hcc⟩
  rcases Relation.ReflTransGen.cases_head hkc with heq | ⟨e, hke, hec⟩
  · subst heq
    obtain ⟨e, hke, hek⟩ := Relation.TransGen.head'_iff.1 hcc
    exact h e hke ⟨key, hek, hcc⟩
  · exact h e hke ⟨c, hec, hcc⟩

theorem visitSeq_ok_inv (ρ : RangeOrder Key) (g : Graph Key) (fuel : Nat) (key : Key)
    (tick : Nat) (results path : List Key) (st' : Nat × List Key)
    (h : visitSeq ρ g (fuel + 1) key (tick, results) path = some (.ok st')) :
    key ∉ path ∧ ∃ t1 r1,
      forEdges (fun edge st => visitSeq ρ g fuel edge st (path ++ [key]))
        (Node.edges ρ tick (g.node key)) (tick + 1, results) = some (.ok (t1, r1)) ∧
      st' = (t1, if key ∈ r1 then r1 else r1 ++ [key]) := by
  simp only [visitSeq] at h
  by_cases hk : key ∈ path
  · rw [if_pos hk] at h
    simp at h
  · rw [if_neg hk] at h
    refine ⟨hk, ?_⟩
    rcases hloop : forEdges (fun edge st => visitSeq ρ g fuel edge st (path ++ [key]))
      (Node.edges ρ tick (g.node key)) (tick + 1, results) with _ | (c | ⟨t1, r1⟩) <;>
      rw [hloop] at h
    · exact Option.noConfusion h
    · simp at h
    · simp only [Option.some.injEq, Except.ok.injEq] at h
      exact ⟨t1, r1, rfl, h.symm⟩

theorem visitSeq_error_inv (ρ : RangeOrder Key) (g : Graph Key) (fuel : Nat) (key : Key)
    (tick : Nat) (results path : List Key) (c : List Key)
    (h : visitSeq ρ g (fuel + 1) key (tick, results) path = some (.error c)) :
    (key ∈ path ∧ c = path.drop (path.indexOf key) ++ [key]) ∨
    (key ∉ path ∧
      forEdges (fun edge st => visitSeq ρ g fuel edge st (path ++ [key]))
        (Node.edges ρ tick (g.node key)) (tick + 1, results) = some (.error c)) := by
  simp only [visitSeq] at h
  by_cases hk : key ∈ path
  · rw [if_pos hk] at h
    simp only [Option.some.injEq, Except.error.injEq] at h
    exact Or.inl ⟨hk, h.symm⟩
  · rw [if_neg hk] at h
    refine Or.inr ⟨hk, ?_⟩
    rcases hloop : forEdges (fun edge st => visitSeq ρ g fuel edge st (path ++ [key]))
      (Node.edges ρ tick (g.node key)) (tick + 1, results) with _ | (c1 | ⟨t1, r1⟩) <;>
      rw [hloop] at h
    · exact Option.noConfusion h
    · simp only [Option.some.injEq, Except.error.injEq] at h
      rw [h]
    · simp at h

theorem visitSeq_ok_acyclic (ρ : RangeOrder Key) (g : Graph Key) (fuel : Nat) :
    ∀ (key : Key) (st : Nat × List Key) (path : List Key) (st' : Nat × List Key),
      visitSeq ρ g fuel key st path = some (.ok st') → ¬ g.CycleReachable key := by
  induction fuel with
  | zero => intro key st path st' h; simp [visitSeq] at h
  | succ fuel ih =>
    intro key st path st' h
    obtain ⟨tick, results⟩ := st
    obtain ⟨_, t1, r1, hloop, _⟩ := visitSeq_ok_inv ρ g fuel key tick results path st' h
    have hall := forEdges_ok_rule
      (fun edge st => visitSeq ρ g fuel edge st (path ++ [key]))
      (fun _ => True) (fun d _ => ∀ e ∈ d, ¬ g.CycleReachable e)
      (fun d e s s' hI _ hb x hx => by
        rcases List.mem_append.1 hx with hx | hx
        · exact hI x hx
        · rw [List.mem_singleton] at hx
          subst hx
          exact ih x s (path ++ [key]) s' hb)
      (Node.edges ρ tick (g.node key)) [] (tick + 1, results) (t1, r1)
      (fun _ _ => trivial) (fun e he => absurd he (List.not_mem_nil e)) hloop
    apply not_cycleReachable_of_succ
    intro e he
    exact hall e (by simpa using (mem_edges ρ g tick key e).2 he)

end Graph

end Topsort

/-! ## The error of the traversal, and its termination -/

namespace Topsort

theorem nodup_snoc {Key : Type} {path : List Key} {key : Key} (hnd : path.Nodup)
    (hk : key ∉ path) : (path ++ [key]).Nodup := by
  rw [List.nodup_append]
  refine ⟨hnd, List.nodup_singleton key, ?_⟩
  intro x hx hx'
  rw [List.mem_singleton] at hx'
  exact hk (hx' ▸ hx)

namespace Graph

variable {Key : Type} [DecidableEq Key]

theorem chain_snoc (g : Graph Key) {l : List Key} {a b : Key}
    (h : List.Chain' g.Edge (l ++ [a])) (hab : g.Edge a b) :
    List.Chain' g.Edge (l ++ [a] ++ [b]) := by
  apply List.Chain'.append h (List.chain'_singleton b)
  intro x hx y hy
  rw [List.getLast?_concat] at hx
  simp only [List.head?_cons, Option.mem_def, Option.some.injEq] at hx hy
  subst hx hy
  exact hab

/-- An error of `visitSeq` reports the part of the extended path that starts at a key
`k` of that path, followed by `k`. -/
theorem visitSeq_error (ρ : RangeOrder Key) (g : Graph Key) (fuel : Nat) :
    ∀ (key : Key) (st : Nat × List Key) (path c : List Key),
      visitSeq ρ g fuel key st path = some (.error c) →
      ∃ ext k, c = (path ++ ext).drop ((path ++ ext).indexOf k) ++ [k] ∧ k ∈ path ++ ext ∧
        (path.Nodup → (path ++ ext).Nodup) ∧
        (List.Chain' g.Edge (path ++ [key]) → List.Chain' g.Edge (path ++ ext ++ [k])) ∧
        (∀ x ∈ ext ++ [k], g.ReachableOrEq key x) := by
  induction fuel with
  | zero => intro key st path c h; simp [visitSeq] at h
  | succ fuel ih =>
    intro key st path c h
    obtain ⟨tick, results⟩ := st
    rcases visitSeq_error_inv ρ g fuel key tick results path c h with ⟨hk, hc⟩ | ⟨hk, hloop⟩
    · refine ⟨[], key, ?_, ?_, ?_, ?_, ?_⟩
      · simpa using hc
      · simpa using hk
      · simp
      · simp
      · intro x hx
        simp only [List.nil_append, List.mem_singleton] at hx
        subst hx
        exact Relation.ReflTransGen.refl
    · obtain ⟨e, he, s, hs⟩ := forEdges_error _ _ _ _ hloop
      have hedge : g.Edge key e := (mem_edges ρ g tick key e).1 he
      obtain ⟨ext, k, h1, h2, h3, h4, h5⟩ := ih e s (path ++ [key]) c hs
      refine ⟨key :: ext, k, ?_, ?_, ?_, ?_, ?_⟩
      · simpa using h1
      · simpa using h2
      · intro hnd
        simpa using h3 (nodup_snoc hnd hk)
      · intro hch
        simpa using h4 (chain_snoc g hch hedge)
      · intro x hx
        rcases List.mem_cons.1 hx with hx | hx
        · subst hx
          exact Relation.ReflTransGen.refl
        · exact Relation.ReflTransGen.head hedge (h5 x hx)

theorem chain_get (g : Graph Key) : ∀ (c : List Key), List.Chain' g.Edge c →
    ∀ i x y, c.get? i = some x → c.get? (i + 1) = some y → g.Edge x y := by
  intro c
  induction c with
  | nil => intro _ i x y h; simp at h
  | cons a c ih =>
    intro hch i x y hx hy
    cases i with
    | zero =>
      simp only [List.get?_cons_zero, Option.some.injEq] at hx
      subst hx
      cases c with
      | nil => simp at hy
      | cons b c =>
        simp only [List.get?_cons_succ, List.get?_cons_zero, Option.some.injEq] at hy
        subst hy
        exact (List.chain'_cons.1 hch).1
    | succ i =>
      simp only [List.get?_cons_succ] at hx hy
      exact ih hch.tail i x y hx hy

theorem isCycleOf_drop (g : Graph Key) (p : List Key) (k : Key) (hk : k ∈ p)
    (hch : List.Chain' g.Edge (p ++ [k])) :
    g.IsCycleOf (p.drop (p.indexOf k) ++ [k]) := by
  have hlt : p.indexOf k < p.length := List.indexOf_lt_length.2 hk
  have hdrop : p.drop (p.indexOf k) = k :: p.drop (p.indexOf k + 1) := by
    rw [List.drop_eq_getElem_cons hlt, List.getElem_indexOf]
  refine ⟨?_, ?_, ?_⟩
  · rw [hdrop]
    simp
  · rw [List.getLast?_concat, hdrop]
    rfl
  · apply chain_get
    rw [← List.drop_append_of_le_length (Nat.le_of_lt hlt)]
    exact hch.drop _

theorem transGen_of_chain (g : Graph Key) : ∀ (l : List Key) (x y : Key),
    List.Chain' g.Edge (x :: l ++ [y]) → Relation.TransGen g.Edge x y := by
  intro l
  induction l with
  | nil =>
    intro x y h
    exact Relation.TransGen.single (List.chain'_pair.1 h)
  | cons a l ih =>
    intro x y h
    have h' := List.chain'_cons.1 h
    exact Relation.TransGen.head h'.1 (ih a y h'.2)

theorem reachable_self_of_chain (g : Graph Key) (p : List Key) (k : Key) (hk : k ∈ p)
    (hch : List.Chain' g.Edge (p ++ [k])) : g.Reachable k k := by
  obtain ⟨a, b, rfl⟩ := List.append_of_mem hk
  have : List.Chain' g.Edge (k :: b ++ [k]) := by
    have := hch
    rw [List.append_assoc] at this
    exact this.right_of_append
  exact transGen_of_chain g b k k this

end Graph

end Topsort

namespace Topsort

namespace Graph

variable {Key : Type} [DecidableEq Key]

theorem visitSeq_some (ρ : RangeOrder Key) (g : Graph Key) (U : List Key)
    (hU : ∀ u ∈ U, ∀ v, g.Edge u v → v ∈ U) (fuel : Nat) :
    ∀ (key : Key) (st : Nat × List Key) (path : List Key), path.Nodup →
      (∀ x ∈ path, x ∈ U) → key ∈ U → U.length + 1 ≤ fuel + path.length →
      ∃ r, visitSeq ρ g fuel key st path = some r := by
  induction fuel with
  | zero =>
    intro key st path hnd hsub _ hlen
    have := (hnd.subperm hsub).length_le
    omega
  | succ fuel ih =>
    intro key st path hnd hsub hkey hlen
    obtain ⟨tick, results⟩ := st
    simp only [visitSeq]
    by_cases hk : key ∈ path
    · rw [if_pos hk]
      exact ⟨_, rfl⟩
    · rw [if_neg hk]
      have hnd' : (path ++ [key]).Nodup := nodup_snoc hnd hk
      have hsub' : ∀ x ∈ path ++ [key], x ∈ U := by
        intro x hx
        rcases List.mem_append.1 hx with hx | hx
        · exact hsub x hx
        · rw [List.mem_singleton] at hx
          exact hx ▸ hkey
      obtain ⟨r, hr⟩ := forEdges_some
        (fun edge st => visitSeq ρ g fuel edge st (path ++ [key]))
        (Node.edges ρ tick (g.node key))
        (fun e he s => ih e s (path ++ [key]) hnd' hsub'
          (hU key hkey e ((mem_edges ρ g tick key e).1 he))
          (by rw [List.length_append, List.length_singleton]; omega))
        (tick + 1, results)
      rw [hr]
      rcases r with c | ⟨t1, r1⟩
      · exact ⟨_, rfl⟩
      · exact ⟨_, rfl⟩

end Graph

end Topsort

/-! ## The result of a successful traversal -/

namespace Topsort

namespace Graph

variable {Key : Type} [DecidableEq Key]

theorem succFirst_nil (g : Graph Key) : g.SuccFirst [] := by
  intro a u b h
  simp at h

theorem succFirst_snoc (g : Graph Key) {l : List Key} {key : Key} (h : g.SuccFirst l)
    (hsucc : ∀ v, g.Edge key v → v ∈ l) : g.SuccFirst (l ++ [key]) := by
  intro a u b hsplit v hv
  rcases List.eq_nil_or_concat b with rfl | ⟨b0, z, rfl⟩
  · have := List.append_inj' hsplit rfl
    obtain ⟨rfl, hu⟩ := this
    simp only [List.cons.injEq, and_true] at hu
    subst hu
    exact hsucc v hv
  · have hsplit' : l ++ [key] = (a ++ u :: b0) ++ [z] := by
      rw [hsplit]; simp
    have := List.append_inj' hsplit' rfl
    exact h a u b0 this.1 v hv

theorem succFirst_mem (g : Graph Key) {l : List Key} (h : g.SuccFirst l) {u v : Key}
    (hu : u ∈ l) (huv : g.Edge u v) : v ∈ l := by
  obtain ⟨a, b, rfl⟩ := List.append_of_mem hu
  exact List.mem_append_left _ (h a u b rfl v huv)

theorem succFirst_reach (g : Graph Key) {l : List Key} (h : g.SuccFirst l) {u v : Key}
    (hu : u ∈ l) (huv : g.ReachableOrEq u v) : v ∈ l := by
  induction huv with
  | refl => exact hu
  | tail _ hbc ih => exact succFirst_mem g h ih hbc

theorem succFirst_before (g : Graph Key) {l : List Key} (h : g.SuccFirst l) (hnd : l.Nodup)
    {u v : Key} (hu : u ∈ l) (huv : g.Edge u v) : Before l v u := by
  obtain ⟨a, b, rfl⟩ := List.append_of_mem hu
  have hva : v ∈ a := h a u b rfl v huv
  have hua : u ∉ a := by
    intro hua
    have := (List.nodup_append.1 hnd).2.2
    exact this hua (List.mem_cons_self u b)
  refine ⟨List.mem_append_left _ hva, hu, ?_⟩
  rw [List.indexOf_append_of_mem hva, List.indexOf_append_of_not_mem hua]
  have := List.indexOf_lt_length.2 hva
  simp only [List.indexOf_cons_self]
  omega

theorem visitSeq_ok_post (ρ : RangeOrder Key) (g : Graph Key) (fuel : Nat) :
    ∀ (key : Key) (tick : Nat) (res path : List Key) (st' : Nat × List Key),
      visitSeq ρ g fuel key (tick, res) path = some (.ok st') →
      ∃ ext, st'.2 = res ++ ext ∧ key ∈ st'.2 ∧ (∀ x ∈ ext, g.ReachableOrEq key x) ∧
        (res.Nodup → st'.2.Nodup) ∧ (g.SuccFirst res → g.SuccFirst st'.2) := by
  induction fuel with
  | zero => intro key tick res path st' h; simp [visitSeq] at h
  | succ fuel ih =>
    intro key tick res path st' h
    obtain ⟨_, t1, r1, hloop, rfl⟩ := visitSeq_ok_inv ρ g fuel key tick res path st' h
    have hI := forEdges_ok_rule
      (fun edge st => visitSeq ρ g fuel edge st (path ++ [key]))
      (fun e => g.Edge key e)
      (fun d s => ∃ ext, s.2 = res ++ ext ∧ (∀ e ∈ d, e ∈ s.2) ∧
        (∀ x ∈ ext, g.ReachableOrEq key x) ∧ (res.Nodup → s.2.Nodup) ∧
        (g.SuccFirst res → g.SuccFirst s.2))
      (fun d e s s' hI he hb => by
        obtain ⟨ext, h1, h2, h3, h4, h5⟩ := hI
        obtain ⟨ts, rs⟩ := s
        obtain ⟨ext', k1, k2, k3, k4, k5⟩ := ih e ts rs (path ++ [key]) s' hb
        simp only at h1 h2 h4 h5
        refine ⟨ext ++ ext', ?_, ?_, ?_, ?_, ?_⟩
        · rw [k1, h1, List.append_assoc]
        · intro x hx
          rcases List.mem_append.1 hx with hx | hx
          · rw [k1]
            exact List.mem_append_left _ (h2 x hx)
          · rw [List.mem_singleton] at hx
            exact hx ▸ k2
        · intro x hx
          rcases List.mem_append.1 hx with hx | hx
          · exact h3 x hx
          · exact Relation.ReflTransGen.head he (k3 x hx)
        · exact fun hnd => k4 (h4 hnd)
        · exact fun hsf => k5 (h5 hsf))
      (Node.edges ρ tick (g.node key)) [] (tick + 1, res) (t1, r1)
      (fun e he => (mem_edges ρ g tick key e).1 he)
      ⟨[], by simp, by simp, by simp, fun h => h, fun h => h⟩ hloop
    obtain ⟨ext, h1, h2, h3, h4, h5⟩ := hI
    simp only [List.nil_append] at h1 h2 h4 h5
    have hsucc : ∀ v, g.Edge key v → v ∈ r1 :=
      fun v hv => h2 v ((mem_edges ρ g tick key v).2 hv)
    by_cases hk : key ∈ r1
    · simp only [if_pos hk]
      exact ⟨ext, h1, hk, h3, h4, h5⟩
    · simp only [if_neg hk]
      refine ⟨ext ++ [key], ?_, ?_, ?_, ?_, ?_⟩
      · rw [h1, List.append_assoc]
      · simp
      · intro x hx
        rcases List.mem_append.1 hx with hx | hx
        · exact h3 x hx
        · rw [List.mem_singleton] at hx
          subst hx
          exact Relation.ReflTransGen.refl
      · exact fun hnd => nodup_snoc (h4 hnd) hk
      · exact fun hsf => succFirst_snoc g (h5 hsf) hsucc

end Graph

end Topsort

/-! ## `TopSort` in terms of the traversal on sequences -/

namespace Topsort

namespace Graph

variable {Key : Type} [DecidableEq Key]

theorem edge_elim (g : Graph Key) {u v : Key} (h : g.Edge u v) :
    ∃ n, GoMap.find g.Nodes u = some n ∧ v ∈ GoMap.keys n := by
  unfold Edge node at h
  cases hf : GoMap.find g.Nodes u with
  | none => rw [hf] at h; simp [GoMap.keys] at h
  | some n => rw [hf] at h; exact ⟨n, rfl, h⟩

theorem edge_mem_allKeys (g : Graph Key) {u v : Key} (h : g.Edge u v) : v ∈ g.allKeys := by
  obtain ⟨n, hn, hv⟩ := edge_elim g h
  unfold allKeys
  rw [List.mem_flatMap]
  exact ⟨(u, n), GoMap.mem_of_find _ _ _ hn, List.mem_cons_of_mem _ hv⟩

theorem edge_src_mem_keys (g : Graph Key) {u v : Key} (h : g.Edge u v) :
    u ∈ GoMap.keys g.Nodes := by
  obtain ⟨n, hn, _⟩ := edge_elim g h
  exact (GoMap.find_isSome_iff _ _).1 (by rw [hn]; rfl)

/-- The budget of `TopSort` is enough: the traversal on sequences returns. -/
theorem visitSeq_budget (ρ : RangeOrder Key) (g : Graph Key) (key : Key) :
    ∃ r, visitSeq ρ g g.budget key (0, []) [] = some r := by
  apply visitSeq_some ρ g (key :: g.allKeys)
  · intro u _ v huv
    exact List.mem_cons_of_mem _ (edge_mem_allKeys g huv)
  · exact List.nodup_nil
  · intro x hx
    exact absurd hx (List.not_mem_nil x)
  · exact List.mem_cons_self _ _
  · simp [budget]

/-- The value of `TopSort` in terms of the traversal on sequences. -/
theorem TopSort_cases [ToString Key] (ρ : RangeOrder Key) (g : Graph Key) (key : Key) :
    (∃ c, visitSeq ρ g g.budget key (0, []) [] = some (.error c) ∧
      TopSort ρ g key =
        some (none, some ⟨c, "Cycle error: " ++ " -> ".intercalate (c.map toString)⟩)) ∨
    (∃ t l, visitSeq ρ g g.budget key (0, []) [] = some (.ok (t, l)) ∧
      TopSort ρ g key = some (some l, none)) := by
  obtain ⟨r, hr⟩ := visitSeq_budget ρ g key
  have href := visit_refines ρ g g.budget key 0 (newOrderedSet Key) (newOrderedSet Key)
    orderedset.inv_new orderedset.inv_new
  rw [← visit_nil] at href
  have hitems : (newOrderedSet Key).items = [] := rfl
  rw [hitems, hr] at href
  rcases hv : visit ρ g g.budget key (0, newOrderedSet Key) none with _ | (err | ⟨t, res⟩) <;>
    rcases r with c | ⟨t', l⟩ <;> rw [hv] at href <;> simp only [Refines] at href <;>
    try exact href.elim
  · left
    refine ⟨c, hr, ?_⟩
    obtain ⟨err1, err2⟩ := err
    simp only at href
    obtain ⟨rfl, rfl⟩ := href
    simp only [TopSort, hv]
  · right
    obtain ⟨rfl, rfl, _⟩ := href
    exact ⟨t, res.items, hr, by simp only [TopSort, hv]⟩

theorem rank_lt_of_reachable (g : Graph Key) (rank : Key → Nat)
    (h : ∀ u ∈ GoMap.keys g.Nodes, ∀ v ∈ GoMap.keys (g.node u), rank v < rank u)
    {a b : Key} (hab : g.Reachable a b) : rank b < rank a := by
  induction hab with
  | single hab => exact h _ (edge_src_mem_keys g hab) _ hab
  | tail _ hbc ih => exact lt_trans (h _ (edge_src_mem_keys g hbc) _ hbc) ih

/-- A graph whose edges all decrease a rank has no cycle. -/
theorem not_cycleReachable_of_rank (g : Graph Key) (rank : Key → Nat)
    (h : ∀ u ∈ GoMap.keys g.Nodes, ∀ v ∈ GoMap.keys (g.node u), rank v < rank u)
    (key : Key) : ¬ g.CycleReachable key := by
  rintro ⟨c, _, hcc⟩
  exact lt_irrefl _ (rank_lt_of_reachable g rank h hcc)

/-- An error of the traversal started by `TopSort` exhibits a reachable cycle. -/
theorem cycleReachable_of_error (ρ : RangeOrder Key) (g : Graph Key) (fuel : Nat) (key : Key)
    (st : Nat × List Key) (c : List Key)
    (h : visitSeq ρ g fuel key st [] = some (.error c)) : g.CycleReachable key := by
  obtain ⟨ext, k, _, h2, _, h4, h5⟩ := visitSeq_error ρ g fuel key st [] c h
  simp only [List.nil_append] at h2 h4 h5
  have hch := h4 (List.chain'_singleton key)
  exact ⟨k, h5 k (by simp), reachable_self_of_chain g ext k h2 hch⟩

end Graph

end Topsort

/-! ## `AddNode` and `AddEdge` -/

namespace Topsort

namespace Graph

variable {Key : Type} [DecidableEq Key]

theorem find_AddNode (g : Graph Key) (k x : Key) :
    GoMap.find (g.AddNode k).Nodes x =
      if k = x ∧ GoMap.find g.Nodes k = none then some [] else GoMap.find g.Nodes x := by
  unfold AddNode ContainsNode
  cases hf : GoMap.find g.Nodes k with
  | none =>
    simp only [Option.isSome_none, Bool.not_false, if_true, GoMap.find_put, and_true]
  | some n =>
    simp

theorem containsNode_AddNode (g : Graph Key) (k x : Key) :
    (g.AddNode k).ContainsNode x = true ↔ g.ContainsNode x = true ∨ x = k := by
  unfold ContainsNode
  rw [find_AddNode]
  by_cases hk : k = x
  · subst hk
    cases hf : GoMap.find g.Nodes k <;> simp
  · simp [hk, Ne.symm hk]

theorem node_AddNode (g : Graph Key) (k x : Key) : (g.AddNode k).node x = g.node x := by
  unfold node
  rw [find_AddNode]
  by_cases hk : k = x
  · subst hk
    cases hf : GoMap.find g.Nodes k <;> simp
  · simp [hk]

theorem find_AddEdge (g : Graph Key) (a b x : Key) :
    GoMap.find (g.AddEdge a b).1.Nodes x =
      if a = x then some (Node.addEdge (g.node a) b)
      else if b = x then some (g.node b) else GoMap.find g.Nodes x := by
  unfold AddEdge getOrAddNode
  cases hf : GoMap.find g.Nodes a with
  | none =>
    simp only [GoMap.find_put, find_AddNode, node, hf, Option.getD_none]
    by_cases ha : a = x
    · simp [ha]
    · simp only [if_neg ha]
      by_cases hb : b = x
      · subst hb
        by_cases hab : a = b
        · exact absurd hab ha
        · simp only [if_neg hab, true_and]
          cases hfb : GoMap.find g.Nodes b <;> simp
      · simp [hb]
  | some n =>
    simp only [GoMap.find_put, find_AddNode, node, hf, Option.getD_some]
    by_cases ha : a = x
    · simp [ha]
    · simp only [if_neg ha]
      by_cases hb : b = x
      · subst hb
        cases hfb : GoMap.find g.Nodes b <;> simp
      · simp [hb]

theorem containsNode_AddEdge (g : Graph Key) (a b x : Key) :
    (g.AddEdge a b).1.ContainsNode x = true ↔ g.ContainsNode x = true ∨ x = a ∨ x = b := by
  unfold ContainsNode
  rw [find_AddEdge]
  by_cases ha : a = x
  · simp [ha]
  · by_cases hb : b = x
    · simp [ha, hb]
    · simp [ha, hb, Ne.symm ha, Ne.symm hb]

theorem node_AddEdge (g : Graph Key) (a b x : Key) :
    (g.AddEdge a b).1.node x = if a = x then Node.addEdge (g.node a) b else g.node x := by
  unfold node
  rw [find_AddEdge]
  by_cases ha : a = x
  · subst ha
    simp [node]
  · by_cases hb : b = x
    · subst hb
      simp [ha, node]
    · simp [ha, hb]

theorem mem_keys_addEdge (n : Node Key) (b x : Key) :
    x ∈ GoMap.keys (Node.addEdge n b) ↔ x ∈ GoMap.keys n ∨ x = b := by
  unfold Node.addEdge
  rw [GoMap.keys_put]
  by_cases hb : b ∈ GoMap.keys n
  · rw [if_pos hb]
    constructor
    · exact Or.inl
    · rintro (h | h)
      · exact h
      · exact h ▸ hb
  · rw [if_neg hb]
    simp

theorem edge_AddNode (g : Graph Key) (k u v : Key) : (g.AddNode k).Edge u v ↔ g.Edge u v := by
  unfold Edge
  rw [node_AddNode]

theorem edge_AddEdge (g : Graph Key) (a b u v : Key) :
    (g.AddEdge a b).1.Edge u v ↔ g.Edge u v ∨ (u = a ∧ v = b) := by
  unfold Edge
  rw [node_AddEdge]
  by_cases ha : a = u
  · subst ha
    rw [if_pos rfl, mem_keys_addEdge]
    simp
  · rw [if_neg ha]
    simp [Ne.symm ha]

theorem AddNode_of_contains (g : Graph Key) (k : Key) (h : g.ContainsNode k = true) :
    g.AddNode k = g := by
  unfold AddNode
  simp [h]

theorem getOrAddNode_of_find (g : Graph Key) (a : Key) (n : Node Key)
    (h : GoMap.find g.Nodes a = some n) : g.getOrAddNode a = (g, n) := by
  unfold getOrAddNode
  rw [h]

theorem AddEdge_fst (g : Graph Key) (a b : Key) :
    (g.AddEdge a b).1 =
      { Nodes := GoMap.put ((g.getOrAddNode a).1.AddNode b).Nodes a
          (Node.addEdge (g.getOrAddNode a).2 b) } := rfl

theorem AddNode_twice (g : Graph Key) (k : Key) : (g.AddNode k).AddNode k = g.AddNode k :=
  AddNode_of_contains _ k ((containsNode_AddNode g k k).2 (Or.inr rfl))

theorem AddEdge_twice (g : Graph Key) (a b : Key) :
    ((g.AddEdge a b).1.AddEdge a b).1 = (g.AddEdge a b).1 := by
  have hfa := find_AddEdge g a b a
  rw [if_pos rfl] at hfa
  have hcb : (g.AddEdge a b).1.ContainsNode b = true :=
    (containsNode_AddEdge g a b b).2 (Or.inr (Or.inr rfl))
  have hput : Node.addEdge (Node.addEdge (g.node a) b) b = Node.addEdge (g.node a) b := by
    unfold Node.addEdge
    apply GoMap.put_eq_self
    rw [GoMap.find_put, if_pos rfl]
  generalize (g.AddEdge a b).1 = G at hfa hcb
  rw [AddEdge_fst, getOrAddNode_of_find G a _ hfa, AddNode_of_contains G b hcb, hput,
    GoMap.put_eq_self _ _ _ hfa]

end Graph

end Topsort

/-! ## Runs of `addNodesToTempGraph` -/

namespace Topsort

theorem forEach_rule {Key σ : Type} (body : Key → σ → Option σ)
    (M : Key → Prop) (I : List Key → σ → Prop)
    (hstep : ∀ d e s s', I d s → M e → body e s = some s' → I (d ++ [e]) s')
    (es : List Key) : ∀ (d : List Key) (st st' : σ), (∀ e ∈ es, M e) → I d st →
      forEach body es st = some st' → I (d ++ es) st' := by
  induction es with
  | nil =>
    intro d st st' _ hI h
    simp only [forEach, Option.some.injEq] at h
    subst h
    simpa using hI
  | cons e es ih =>
    intro d st st' hM hI h
    simp only [forEach] at h
    rcases hb : body e st with _ | s1 <;> rw [hb] at h
    · exact Option.noConfusion h
    · simp only at h
      have := ih (d ++ [e]) s1 st' (fun x hx => hM x (List.mem_cons_of_mem _ hx))
        (hstep d e st s1 hI (hM e (List.mem_cons_self _ _)) hb) h
      simpa using this

theorem forEach_some {Key σ : Type} (body : Key → σ → Option σ) (J : σ → Prop)
    (es : List Key) (hbody : ∀ e ∈ es, ∀ s, J s → ∃ s', body e s = some s' ∧ J s') :
    ∀ st : σ, J st → ∃ st', forEach body es st = some st' := by
  induction es with
  | nil => intro st _; exact ⟨_, rfl⟩
  | cons e es ih =>
    intro st hJ
    obtain ⟨s1, hs1, hJ1⟩ := hbody e (List.mem_cons_self _ _) st hJ
    simp only [forEach, hs1]
    exact ih (fun x hx => hbody x (List.mem_cons_of_mem _ hx)) s1 hJ1

namespace Graph
variable {Key : Type} [DecidableEq Key]

theorem isVisited_put (V : GoMap Key Bool) (k x : Key) :
    isVisited (GoMap.put V k true) x = true ↔ x = k ∨ isVisited V x = true := by
  unfold isVisited
  rw [GoMap.find_put]
  by_cases h : k = x
  · simp [h]
  · simp [h, Ne.symm h]

theorem isVisited_nil (x : Key) : isVisited ([] : GoMap Key Bool) x = false := rfl

theorem containsNode_NewGraph (x : Key) : (NewGraph Key).ContainsNode x = false := rfl

theorem not_edge_NewGraph (u v : Key) : ¬ (NewGraph Key).Edge u v := by
  simp [Edge, node, NewGraph, GoMap.find, GoMap.keys]

/-- A call that finds its node visited changes nothing. -/
theorem grown_refl (g : Graph Key) (roots pending : Key → Prop) (V : GoMap Key Bool)
    (T : Graph Key) (hroots : ∀ r, roots r → isVisited V r = true) :
    Grown g roots pending V T V T where
  mono := fun _ h => h
  covers := hroots
  sound := fun _ h => Or.inl h
  closed := fun _ h => Or.inl h
  nodes := by
    intro k
    constructor
    · exact Or.inl
    · rintro (h | ⟨h1, h2⟩)
      · exact h
      · rw [h1] at h2
        exact Bool.noConfusion h2
  edgesSound := fun _ _ h => Or.inl h
  edgesMono := fun _ _ h => h
  spanning := by
    intro v h1 h2
    rw [h1] at h2
    exact Bool.noConfusion h2

/-- Two runs in sequence. -/
theorem grown_trans (g : Graph Key) (R1 R2 pending : Key → Prop)
    {V V1 V2 : GoMap Key Bool} {T T1 T2 : Graph Key}
    (h1 : Grown g R1 pending V T V1 T1) (h2 : Grown g R2 (fun _ => False) V1 T1 V2 T2) :
    Grown g (fun k => R1 k ∨ R2 k) pending V T V2 T2 where
  mono := fun k h => h2.mono k (h1.mono k h)
  covers := by
    rintro r (h | h)
    · exact h2.mono r (h1.covers r h)
    · exact h2.covers r h
  sound := by
    intro k hk
    rcases h2.sound k hk with h | ⟨r, hr, hrk⟩
    · rcases h1.sound k h with h | ⟨r, hr, hrk⟩
      · exact Or.inl h
      · exact Or.inr ⟨r, Or.inl hr, hrk⟩
    · exact Or.inr ⟨r, Or.inr hr, hrk⟩
  closed := by
    intro u hu
    rcases h2.closed u hu with h | h | h
    · rcases h1.closed u h with h | h | h
      · exact Or.inl h
      · exact Or.inr (Or.inl h)
      · exact Or.inr (Or.inr (fun v hv => h2.mono v (h v hv)))
    · exact h.elim
    · exact Or.inr (Or.inr h)
  nodes := by
    intro k
    rw [h2.nodes, h1.nodes]
    constructor
    · rintro ((h | ⟨ha, hb⟩) | ⟨ha, hb⟩)
      · exact Or.inl h
      · exact Or.inr ⟨h2.mono k ha, hb⟩
      · right
        refine ⟨ha, ?_⟩
        cases hv : isVisited V k
        · rfl
        · rw [h1.mono k hv] at hb
          exact Bool.noConfusion hb
    · rintro (h | ⟨ha, hb⟩)
      · exact Or.inl (Or.inl h)
      · rcases Bool.eq_false_or_eq_true (isVisited V1 k) with hv | hv
        · exact Or.inl (Or.inr ⟨hv, hb⟩)
        · exact Or.inr ⟨ha, hv⟩
  edgesSound := by
    intro u v huv
    have hfalse : ∀ k, isVisited V1 k = false → isVisited V k = false := by
      intro k hk
      cases hv : isVisited V k
      · rfl
      · rw [h1.mono k hv] at hk
        exact Bool.noConfusion hk
    rcases h2.edgesSound u v huv with h | ⟨he, ha, hb, hc, hd⟩
    · rcases h1.edgesSound u v h with h | ⟨he, ha, hb, hc, hd⟩
      · exact Or.inl h
      · exact Or.inr ⟨he, h2.mono u ha, hb, h2.mono v hc, hd⟩
    · exact Or.inr ⟨he, ha, hfalse u hb, hc, hfalse v hd⟩
  edgesMono := fun u v h => h2.edgesMono u v (h1.edgesMono u v h)
  spanning := by
    intro v hv hnv
    cases hv1 : isVisited V1 v
    · rcases h2.spanning v hv hv1 with h | ⟨u, ha, hb, hc, hd⟩
      · exact Or.inl (Or.inr h)
      · refine Or.inr ⟨u, ha, ?_, hc, hd⟩
        cases hvu : isVisited V u
        · rfl
        · rw [h1.mono u hvu] at hb
          exact Bool.noConfusion hb
    · rcases h1.spanning v hv1 hnv with h | ⟨u, ha, hb, hc, hd⟩
      · exact Or.inl (Or.inl h)
      · exact Or.inr ⟨u, h2.mono u ha, hb, hc, h2.edgesMono u v hd⟩

end Graph

end Topsort

namespace Topsort

namespace Graph

variable {Key : Type} [DecidableEq Key]

theorem addNodes_visited (ρ : RangeOrder Key) (g : Graph Key) (fuel tick : Nat)
    (V : GoMap Key Bool) (T : Graph Key) (node : Key) (h : isVisited V node = true) :
    addNodesToTempGraph ρ g (fuel + 1) (tick, V, T) node = some (tick, V, T) := by
  simp [addNodesToTempGraph, h]

theorem addNodes_unvisited (ρ : RangeOrder Key) (g : Graph Key) (fuel tick : Nat)
    (V : GoMap Key Bool) (T : Graph Key) (node : Key) (h : isVisited V node = false) :
    addNodesToTempGraph ρ g (fuel + 1) (tick, V, T) node =
      forEach
        (fun edge st =>
          if !isVisited st.2.1 edge then
            addNodesToTempGraph ρ g fuel (st.1, st.2.1, (st.2.2.AddEdge node edge).1) edge
          else some st)
        (Node.edges ρ tick (g.node node)) (tick + 1, GoMap.put V node true, T.AddNode node) := by
  simp [addNodesToTempGraph, h]

theorem notVisited_of_mono {V W : GoMap Key Bool}
    (hmono : ∀ k, isVisited V k = true → isVisited W k = true) {k : Key}
    (h : isVisited W k = false) : isVisited V k = false := by
  rcases Bool.eq_false_or_eq_true (isVisited V k) with hv | hv
  · rw [hmono k hv] at h
    exact Bool.noConfusion h
  · exact hv

/-- The state at the start of the loop of `addNodesToTempGraph`. -/
theorem grown_enter (g : Graph Key) (node : Key) (V : GoMap Key Bool) (T : Graph Key)
    (hnode : isVisited V node = false) :
    Grown g (fun k => k = node) (fun k => k = node) V T
      (GoMap.put V node true) (T.AddNode node) where
  mono := fun k h => (isVisited_put V node k).2 (Or.inr h)
  covers := fun r hr => (isVisited_put V node r).2 (Or.inl hr)
  sound := by
    intro k hk
    rcases (isVisited_put V node k).1 hk with h | h
    · exact Or.inr ⟨node, rfl, h ▸ Relation.ReflTransGen.refl⟩
    · exact Or.inl h
  closed := by
    intro u hu
    rcases (isVisited_put V node u).1 hu with h | h
    · exact Or.inr (Or.inl h)
    · exact Or.inl h
  nodes := by
    intro k
    rw [containsNode_AddNode, isVisited_put]
    constructor
    · rintro (h | h)
      · exact Or.inl h
      · exact Or.inr ⟨Or.inl h, h ▸ hnode⟩
    · rintro (h | ⟨h1 | h1, h2⟩)
      · exact Or.inl h
      · exact Or.inr h1
      · rw [h1] at h2
        exact Bool.noConfusion h2
  edgesSound := fun u v h => Or.inl ((edge_AddNode T node u v).1 h)
  edgesMono := fun u v h => (edge_AddNode T node u v).2 h
  spanning := by
    intro v hv hnv
    rcases (isVisited_put V node v).1 hv with h | h
    · exact Or.inl h
    · rw [h] at hnv
      exact Bool.noConfusion hnv

/-- One turn of the loop of `addNodesToTempGraph` on an edge to an unvisited key. -/
theorem grown_step (g : Graph Key) (node e : Key) {V W W2 : GoMap Key Bool}
    {T Tc T2 : Graph Key} (hnode : isVisited V node = false) (hedge : g.Edge node e)
    (hI : Grown g (fun k => k = node) (fun k => k = node) V T W Tc)
    (he : isVisited W e = false)
    (hrec : Grown g (fun k => k = e) (fun _ => False) W (Tc.AddEdge node e).1 W2 T2) :
    Grown g (fun k => k = node) (fun k => k = node) V T W2 T2 where
  mono := fun k h => hrec.mono k (hI.mono k h)
  covers := fun r hr => hrec.mono r (hI.covers r hr)
  sound := by
    intro k hk
    rcases hrec.sound k hk with h | ⟨r, hr, hrk⟩
    · exact hI.sound k h
    · subst hr
      exact Or.inr ⟨node, rfl, Relation.ReflTransGen.head hedge hrk⟩
  closed := by
    intro u hu
    rcases hrec.closed u hu with h | h | h
    · rcases hI.closed u h with h | h | h
      · exact Or.inl h
      · exact Or.inr (Or.inl h)
      · exact Or.inr (Or.inr (fun v hv => hrec.mono v (h v hv)))
    · exact h.elim
    · exact Or.inr (Or.inr h)
  nodes := by
    intro k
    rw [hrec.nodes, containsNode_AddEdge, hI.nodes]
    constructor
    · rintro (((h | ⟨ha, hb⟩) | h | h) | ⟨ha, hb⟩)
      · exact Or.inl h
      · exact Or.inr ⟨hrec.mono k ha, hb⟩
      · subst h
        exact Or.inr ⟨hrec.mono k (hI.covers k rfl), hnode⟩
      · subst h
        exact Or.inr ⟨hrec.covers k rfl, notVisited_of_mono hI.mono he⟩
      · exact Or.inr ⟨ha, notVisited_of_mono hI.mono hb⟩
    · rintro (h | ⟨ha, hb⟩)
      · exact Or.inl (Or.inl (Or.inl h))
      · rcases Bool.eq_false_or_eq_true (isVisited W k) with hv | hv
        · exact Or.inl (Or.inl (Or.inr ⟨hv, hb⟩))
        · exact Or.inr ⟨ha, hv⟩
  edgesSound := by
    intro u v huv
    rcases hrec.edgesSound u v huv with h | ⟨h0, h1, h2, h3, h4⟩
    · rcases (edge_AddEdge Tc node e u v).1 h with h | ⟨hu, hv⟩
      · rcases hI.edgesSound u v h with h | ⟨h0, h1, h2, h3, h4⟩
        · exact Or.inl h
        · exact Or.inr ⟨h0, hrec.mono u h1, h2, hrec.mono v h3, h4⟩
      · subst hu hv
        exact Or.inr ⟨hedge, hrec.mono u (hI.covers u rfl), hnode, hrec.covers v rfl,
          notVisited_of_mono hI.mono he⟩
    · exact Or.inr ⟨h0, h1, notVisited_of_mono hI.mono h2, h3, notVisited_of_mono hI.mono h4⟩
  edgesMono := fun u v h =>
    hrec.edgesMono u v ((edge_AddEdge Tc node e u v).2 (Or.inl (hI.edgesMono u v h)))
  spanning := by
    intro v hv hnv
    rcases Bool.eq_false_or_eq_true (isVisited W v) with hw | hw
    · rcases hI.spanning v hw hnv with h | ⟨u, h1, h2, h3, h4⟩
      · exact Or.inl h
      · exact Or.inr ⟨u, hrec.mono u h1, h2, h3,
          hrec.edgesMono u v ((edge_AddEdge Tc node e u v).2 (Or.inl h4))⟩
    · rcases hrec.spanning v hv hw with h | ⟨u, h1, h2, h3, h4⟩
      · subst h
        exact Or.inr ⟨node, hrec.mono node (hI.covers node rfl), hnode, hedge,
          hrec.edgesMono node v ((edge_AddEdge Tc node v node v).2 (Or.inr ⟨rfl, rfl⟩))⟩
      · exact Or.inr ⟨u, h1, notVisited_of_mono hI.mono h2, h3, h4⟩

/-- The state at the end of the loop of `addNodesToTempGraph`. -/
theorem grown_leave (g : Graph Key) (node : Key) {V W : GoMap Key Bool} {T Tc : Graph Key}
    (hI : Grown g (fun k => k = node) (fun k => k = node) V T W Tc)
    (hall : ∀ v, g.Edge node v → isVisited W v = true) :
    Grown g (fun k => k = node) (fun _ => False) V T W Tc where
  mono := hI.mono
  covers := hI.covers
  sound := hI.sound
  closed := by
    intro u hu
    rcases hI.closed u hu with h | h | h
    · exact Or.inl h
    · subst h
      exact Or.inr (Or.inr hall)
    · exact Or.inr (Or.inr h)
  nodes := hI.nodes
  edgesSound := hI.edgesSound
  edgesMono := hI.edgesMono
  spanning := hI.spanning

/-- What a call of `addNodesToTempGraph` that returns has done. -/
theorem addNodes_grown (ρ : RangeOrder Key) (g : Graph Key) (fuel : Nat) :
    ∀ (tick : Nat) (V : GoMap Key Bool) (T : Graph Key) (node : Key)
      (st' : Nat × GoMap Key Bool × Graph Key),
      addNodesToTempGraph ρ g fuel (tick, V, T) node = some st' →
      Grown g (fun k => k = node) (fun _ => False) V T st'.2.1 st'.2.2 := by
  induction fuel with
  | zero => intro tick V T node st' h; simp [addNodesToTempGraph] at h
  | succ fuel ih =>
    intro tick V T node st' h
    rcases Bool.eq_false_or_eq_true (isVisited V node) with hv | hv
    · rw [addNodes_visited ρ g fuel tick V T node hv] at h
      simp only [Option.some.injEq] at h
      subst h
      exact grown_refl g _ _ V T (fun r hr => hr ▸ hv)
    · rw [addNodes_unvisited ρ g fuel tick V T node hv] at h
      have hI := forEach_rule
        (fun edge st =>
          if !isVisited st.2.1 edge then
            addNodesToTempGraph ρ g fuel (st.1, st.2.1, (st.2.2.AddEdge node edge).1) edge
          else some st)
        (fun e => g.Edge node e)
        (fun d s => Grown g (fun k => k = node) (fun k => k = node) V T s.2.1 s.2.2 ∧
          ∀ e ∈ d, isVisited s.2.1 e = true)
        (fun d e s s' hI he hb => by
          obtain ⟨hG, hd⟩ := hI
          obtain ⟨ts, W, Tc⟩ := s
          simp only at hb hG hd
          rcases Bool.eq_false_or_eq_true (isVisited W e) with hw | hw
          · simp only [hw, Bool.not_true, Bool.false_eq_true, if_false,
              Option.some.injEq] at hb
            subst hb
            refine ⟨hG, ?_⟩
            intro x hx
            rcases List.mem_append.1 hx with hx | hx
            · exact hd x hx
            · rw [List.mem_singleton] at hx
              exact hx ▸ hw
          · simp only [hw, Bool.not_false, if_true] at hb
            have hrec := ih ts W (Tc.AddEdge node e).1 e s' hb
            refine ⟨grown_step g node e hv he hG hw hrec, ?_⟩
            intro x hx
            rcases List.mem_append.1 hx with hx | hx
            · exact hrec.mono x (hd x hx)
            · rw [List.mem_singleton] at hx
              exact hrec.covers x hx)
        (Node.edges ρ tick (g.node node)) []
        (tick + 1, GoMap.put V node true, T.AddNode node) st'
        (fun e he => (mem_edges ρ g tick node e).1 he)
        ⟨grown_enter g node V T hv, fun e he => absurd he (List.not_mem_nil e)⟩ h
      obtain ⟨hG, hd⟩ := hI
      exact grown_leave g node hG
        (fun v hv' => hd v (by simpa using (mem_edges ρ g tick node v).2 hv'))

end Graph

end Topsort

namespace Topsort

namespace Graph

variable {Key : Type} [DecidableEq Key]

/-- A call of `addNodesToTempGraph` returns when its fuel exceeds the number of
unvisited keys. -/
theorem addNodes_some (ρ : RangeOrder Key) (g : Graph Key) (U : List Key)
    (hU : ∀ u ∈ U, ∀ v, g.Edge u v → v ∈ U) (fuel : Nat) :
    ∀ (tick : Nat) (V : GoMap Key Bool) (T : Graph Key) (node : Key), node ∈ U →
      (U.toFinset.filter (fun k => isVisited V k = false)).card < fuel →
      ∃ st', addNodesToTempGraph ρ g fuel (tick, V, T) node = some st' := by
  induction fuel with
  | zero => intro tick V T node _ h; exact absurd h (Nat.not_lt_zero _)
  | succ fuel ih =>
    intro tick V T node hnode hcard
    rcases Bool.eq_false_or_eq_true (isVisited V node) with hv | hv
    · exact ⟨_, addNodes_visited ρ g fuel tick V T node hv⟩
    · rw [addNodes_unvisited ρ g fuel tick V T node hv]
      apply forEach_some _
        (fun s => ∀ k, isVisited (GoMap.put V node true) k = true → isVisited s.2.1 k = true)
      · intro e he s hJ
        obtain ⟨ts, W, Tc⟩ := s
        simp only at hJ ⊢
        rcases Bool.eq_false_or_eq_true (isVisited W e) with hw | hw
        · simp only [hw, Bool.not_true, Bool.false_eq_true, if_false]
          exact ⟨_, rfl, hJ⟩
        · simp only [hw, Bool.not_false, if_true]
          have hsub : U.toFinset.filter (fun k => isVisited W k = false) ⊂
              U.toFinset.filter (fun k => isVisited V k = false) := by
            constructor
            · intro k hk
              rw [Finset.mem_filter] at hk ⊢
              refine ⟨hk.1, notVisited_of_mono ?_ hk.2⟩
              intro x hx
              exact hJ x ((isVisited_put V node x).2 (Or.inr hx))
            · intro hcontra
              have hmem : node ∈ U.toFinset.filter (fun k => isVisited V k = false) := by
                rw [Finset.mem_filter]
                exact ⟨List.mem_toFinset.2 hnode, hv⟩
              have := (Finset.mem_filter.1 (hcontra hmem)).2
              rw [hJ node ((isVisited_put V node node).2 (Or.inl rfl))] at this
              exact Bool.noConfusion this
          have hlt := Finset.card_lt_card hsub
          obtain ⟨s', hs'⟩ := ih ts W (Tc.AddEdge node e).1 e
            (hU node hnode e ((mem_edges ρ g tick node e).1 he)) (by omega)
          refine ⟨s', hs', ?_⟩
          intro k hk
          exact (addNodes_grown ρ g fuel ts W _ e s' hs').mono k (hJ k hk)
      · intro k hk
        exact hk

/-- The budget is enough for a call of `addNodesToTempGraph` from any state. -/
theorem addNodes_budget (ρ : RangeOrder Key) (g : Graph Key) (tick : Nat)
    (V : GoMap Key Bool) (T : Graph Key) (node : Key) :
    ∃ st', addNodesToTempGraph ρ g g.budget (tick, V, T) node = some st' := by
  apply addNodes_some ρ g (node :: g.allKeys)
  · intro u _ v huv
    exact List.mem_cons_of_mem _ (edge_mem_allKeys g huv)
  · exact List.mem_cons_self _ _
  · calc ((node :: g.allKeys).toFinset.filter (fun k => isVisited V k = false)).card
        ≤ (node :: g.allKeys).toFinset.card := Finset.card_filter_le _ _
      _ ≤ (node :: g.allKeys).length := List.toFinset_card_le _
      _ < g.budget := by simp [budget]

theorem grown_roots_congr (g : Graph Key) {R R' pending : Key → Prop}
    {V V' : GoMap Key Bool} {T T' : Graph Key} (hR : ∀ k, R k ↔ R' k)
    (h : Grown g R pending V T V' T') : Grown g R' pending V T V' T' := by
  have : R = R' := funext fun k => propext (hR k)
  exact this ▸ h

/-- The keys visited by a run from the empty `visited` map. -/
theorem grown_visited_iff (g : Graph Key) {R : Key → Prop} {V' : GoMap Key Bool}
    {T T' : Graph Key} (h : Grown g R (fun _ => False) [] T V' T') (k : Key) :
    isVisited V' k = true ↔ ∃ r, R r ∧ g.ReachableOrEq r k := by
  constructor
  · intro hk
    rcases h.sound k hk with h0 | h0
    · exact Bool.noConfusion h0
    · exact h0
  · rintro ⟨r, hr, hrk⟩
    induction hrk with
    | refl => exact h.covers r hr
    | tail _ hbc ih =>
      rcases h.closed _ ih with h0 | h0 | h0
      · exact Bool.noConfusion h0
      · exact h0.elim
      · exact h0 _ hbc

theorem grown_nodes_iff (g : Graph Key) {R : Key → Prop} {V' : GoMap Key Bool}
    {T' : Graph Key} (h : Grown g R (fun _ => False) [] (NewGraph Key) V' T') (k : Key) :
    T'.ContainsNode k = true ↔ ∃ r, R r ∧ g.ReachableOrEq r k := by
  rw [h.nodes, ← grown_visited_iff g h]
  constructor
  · rintro (h0 | h0)
    · exact Bool.noConfusion h0
    · exact h0.1
  · exact fun h0 => Or.inr ⟨h0, rfl⟩

theorem SubgraphFromTarget_grown (ρ : RangeOrder Key) (g : Graph Key) (target : Key) :
    ∃ V sub, SubgraphFromTarget ρ g target = some sub ∧
      Grown g (fun k => k = target) (fun _ => False) [] (NewGraph Key) V sub := by
  obtain ⟨⟨t', V', T'⟩, hst⟩ := addNodes_budget ρ g 0 [] (NewGraph Key) target
  refine ⟨V', T', ?_, addNodes_grown ρ g _ 0 [] (NewGraph Key) target _ hst⟩
  simp only [SubgraphFromTarget, hst]

theorem SubgraphFromTargets_grown (ρ : RangeOrder Key) (g : Graph Key) (targets : List Key) :
    ∃ V sub, SubgraphFromTargets ρ g targets = some sub ∧
      Grown g (fun k => k ∈ targets) (fun _ => False) [] (NewGraph Key) V sub := by
  obtain ⟨⟨t', V', T'⟩, hst⟩ := forEach_some
    (fun target st => addNodesToTempGraph ρ g g.budget st target) (fun _ => True) targets
    (fun e _ s _ => by
      obtain ⟨s', hs'⟩ := addNodes_budget ρ g s.1 s.2.1 s.2.2 e
      exact ⟨s', hs', trivial⟩)
    (0, ([] : GoMap Key Bool), NewGraph Key) trivial
  have hI := forEach_rule
    (fun target st => addNodesToTempGraph ρ g g.budget st target) (fun _ => True)
    (fun d s => Grown g (fun k => k ∈ d) (fun _ => False) [] (NewGraph Key) s.2.1 s.2.2)
    (fun d e s s' hI _ hb => by
      obtain ⟨ts, W, Tc⟩ := s
      have hrec := addNodes_grown ρ g _ ts W Tc e s' hb
      exact grown_roots_congr g (by intro k; simp) (grown_trans g _ _ _ hI hrec))
    targets [] (0, ([] : GoMap Key Bool), NewGraph Key) (t', V', T') (fun _ _ => trivial)
    (grown_refl g _ _ _ _ (fun r hr => absurd hr (List.not_mem_nil r))) hst
  refine ⟨V', T', ?_, ?_⟩
  · simp only [SubgraphFromTargets, hst]
  · simpa using hI

end Graph

end Topsort

/-! ## Independence of the fuel -/

namespace Topsort

theorem forEdges_congr {Key σ ε : Type} (body body' : Key → σ → Option (Except ε σ))
    (h : ∀ e s r, body e s = some r → body' e s = some r) (es : List Key) :
    ∀ (st : σ) (r : Except ε σ), forEdges body es st = some r →
      forEdges body' es st = some r := by
  induction es with
  | nil => intro st r hr; exact hr
  | cons e es ih =>
    intro st r hr
    simp only [forEdges] at hr ⊢
    rcases hb : body e st with _ | (err | s1) <;> rw [hb] at hr
    · exact Option.noConfusion hr
    · rw [h e st _ hb]
      exact hr
    · rw [h e st _ hb]
      exact ih s1 r hr

theorem forEach_congr {Key σ : Type} (body body' : Key → σ → Option σ)
    (h : ∀ e s r, body e s = some r → body' e s = some r) (es : List Key) :
    ∀ (st r : σ), forEach body es st = some r → forEach body' es st = some r := by
  induction es with
  | nil => intro st r hr; exact hr
  | cons e es ih =>
    intro st r hr
    simp only [forEach] at hr ⊢
    rcases hb : body e st with _ | s1 <;> rw [hb] at hr
    · exact Option.noConfusion hr
    · rw [h e st _ hb]
      exact ih s1 r hr

namespace Graph
variable {Key : Type} [DecidableEq Key]

/-- One step of `visit` on a non-nil `visited`. -/
theorem visit_succ [ToString Key] (ρ : RangeOrder Key) (g : Graph Key) (fuel : Nat)
    (key : Key) (tick : Nat) (results vis : orderedset Key) :
    visit ρ g (fuel + 1) key (tick, results) (some vis) =
      if (!(vis.add key).2) = true then
        if (vis.add key).1.index key < 0 ∨
            ((vis.add key).1.items.length : Int) < (vis.add key).1.index key then none
        else
          some (.error ⟨(vis.add key).1.items.drop ((vis.add key).1.index key).toNat ++ [key],
            "Cycle error: " ++ " -> ".intercalate
              (((vis.add key).1.items.drop ((vis.add key).1.index key).toNat ++ [key]).map
                toString)⟩)
      else
        match forEdges (fun edge st => visit ρ g fuel edge st (some (vis.add key).1.copy))
            (Node.edges ρ tick (g.node key)) (tick + 1, results) with
        | some (.ok (tick, results)) => some (.ok (tick, (results.add key).1))
        | some (.error err) => some (.error err)
        | none => none := rfl

/-- More fuel does not change what `visit` returns. -/
theorem visit_fuel_succ [ToString Key] (ρ : RangeOrder Key) (g : Graph Key) (fuel : Nat) :
    ∀ (key : Key) (st : Nat × orderedset Key) (visited : Option (orderedset Key))
      (r : Except (CycleError Key) (Nat × orderedset Key)),
      visit ρ g fuel key st visited = some r → visit ρ g (fuel + 1) key st visited = some r := by
  induction fuel with
  | zero => intro key st visited r h; simp [visit] at h
  | succ fuel ih =>
    intro key st visited r h
    obtain ⟨tick, results⟩ := st
    have hsome : ∀ vis : orderedset Key,
        visit ρ g (fuel + 1) key (tick, results) (some vis) = some r →
        visit ρ g (fuel + 1 + 1) key (tick, results) (some vis) = some r := by
      intro vis h
      rw [visit_succ] at h ⊢
      by_cases hadd : (!(vis.add key).2) = true
      · rw [if_pos hadd] at h ⊢
        exact h
      · rw [if_neg hadd] at h ⊢
        rcases hloop : forEdges
            (fun edge st => visit ρ g fuel edge st (some (vis.add key).1.copy))
            (Node.edges ρ tick (g.node key)) (tick + 1, results) with _ | r1
        · rw [hloop] at h
          exact Option.noConfusion h
        · rw [hloop] at h
          rw [forEdges_congr _ _ (fun e s r hr => ih e s _ r hr) _ _ _ hloop]
          exact h
    cases visited with
    | none =>
      rw [visit_nil] at h ⊢
      exact hsome _ h
    | some vis => exact hsome vis h

theorem visit_fuel_mono [ToString Key] (ρ : RangeOrder Key) (g : Graph Key) (fuel extra : Nat)
    (key : Key) (st : Nat × orderedset Key) (visited : Option (orderedset Key))
    (r : Except (CycleError Key) (Nat × orderedset Key))
    (h : visit ρ g fuel key st visited = some r) :
    visit ρ g (fuel + extra) key st visited = some r := by
  induction extra with
  | zero => exact h
  | succ extra ih => exact visit_fuel_succ ρ g _ key st visited r ih

/-- More fuel does not change what `addNodesToTempGraph` returns. -/
theorem addNodes_fuel_succ (ρ : RangeOrder Key) (g : Graph Key) (fuel : Nat) :
    ∀ (st : Nat × GoMap Key Bool × Graph Key) (node : Key)
      (r : Nat × GoMap Key Bool × Graph Key),
      addNodesToTempGraph ρ g fuel st node = some r →
      addNodesToTempGraph ρ g (fuel + 1) st node = some r := by
  induction fuel with
  | zero => intro st node r h; simp [addNodesToTempGraph] at h
  | succ fuel ih =>
    intro st node r h
    obtain ⟨tick, V, T⟩ := st
    rcases Bool.eq_false_or_eq_true (isVisited V node) with hv | hv
    · rw [addNodes_visited ρ g _ tick V T node hv] at h ⊢
      exact h
    · rw [addNodes_unvisited ρ g _ tick V T node hv] at h ⊢
      refine forEach_congr _ _ ?_ _ _ _ h
      intro e s r1 hr1
      by_cases hw : (!isVisited s.2.1 e) = true
      · simp only [hw, if_true] at hr1 ⊢
        exact ih _ e r1 hr1
      · simp only [hw, if_false] at hr1 ⊢
        exact hr1

theorem addNodes_fuel_mono (ρ : RangeOrder Key) (g : Graph Key) (fuel extra : Nat)
    (st : Nat × GoMap Key Bool × Graph Key) (node : Key)
    (r : Nat × GoMap Key Bool × Graph Key)
    (h : addNodesToTempGraph ρ g fuel st node = some r) :
    addNodesToTempGraph ρ g (fuel + extra) st node = some r := by
  induction extra with
  | zero => exact h
  | succ extra ih => exact addNodes_fuel_succ ρ g _ st node r ih

end Graph

end Topsort

namespace Topsort

namespace Graph

variable {Key : Type} [DecidableEq Key]

/-- The traversal started by `TopSort` returns within the budget, and any larger fuel
gives the same outcome. -/
theorem visit_budget_stable [ToString Key] (ρ : RangeOrder Key) (g : Graph Key) (key : Key)
    (extra : Nat) :
    ∃ r, visit ρ g g.budget key (0, newOrderedSet Key) none = some r ∧
      visit ρ g (g.budget + extra) key (0, newOrderedSet Key) none = some r := by
  obtain ⟨r, hr⟩ := visitSeq_budget ρ g key
  have href := visit_refines ρ g g.budget key 0 (newOrderedSet Key) (newOrderedSet Key)
    orderedset.inv_new orderedset.inv_new
  rw [← visit_nil] at href
  have hitems : (newOrderedSet Key).items = [] := rfl
  rw [hitems, hr] at href
  rcases hv : visit ρ g g.budget key (0, newOrderedSet Key) none with _ | r1
  · rw [hv] at href
    exact href.elim
  · exact ⟨r1, rfl, visit_fuel_mono ρ g _ extra key _ none r1 hv⟩

/-- A call of `addNodesToTempGraph` returns within the budget, and any larger fuel gives
the same outcome. -/
theorem addNodes_budget_stable (ρ : RangeOrder Key) (g : Graph Key)
    (st : Nat × GoMap Key Bool × Graph Key) (node : Key) (extra : Nat) :
    ∃ r, addNodesToTempGraph ρ g g.budget st node = some r ∧
      addNodesToTempGraph ρ g (g.budget + extra) st node = some r := by
  obtain ⟨r, hr⟩ := addNodes_budget ρ g st.1 st.2.1 st.2.2 node
  exact ⟨r, hr, addNodes_fuel_mono ρ g _ extra st node r hr⟩

end Graph

end Topsort

/-! ## Claims on `TopSort` -/

namespace Topsort

namespace Graph

variable {Key : Type} [DecidableEq Key]

/-- C1: when no directed cycle is reachable from `K`, `TopSort(K)` returns a sequence and no
error, for every order in which the successor sets are enumerated, and for every edge
`u -> v` with `u` equal to `K` or reachable from `K`, the key `v` stands in the returned
sequence at a strictly smaller index than `u`. -/
theorem TopSort_acyclic_order [ToString Key] (ρ : RangeOrder Key) (g : Graph Key) (K : Key)
    (hacyc : ¬ g.CycleReachable K) :
    ∃ res, TopSort ρ g K = some (some res, none) ∧
      ∀ u v, g.ReachableOrEq K u → g.Edge u v → Before res v u := by
  rcases TopSort_cases ρ g K with ⟨c, hc, _⟩ | ⟨t, l, hl, htop⟩
  · exact absurd (cycleReachable_of_error ρ g _ K _ c hc) hacyc
  · obtain ⟨ext, _, h2, _, h4, h5⟩ := visitSeq_ok_post ρ g _ K 0 [] [] (t, l) hl
    have hsf := h5 (succFirst_nil g)
    have hnd := h4 List.nodup_nil
    refine ⟨l, htop, ?_⟩
    intro u v hu huv
    exact succFirst_before g hsf hnd (succFirst_reach g hsf h2 hu) huv

theorem TopSort_acyclic_order_witness :
    ¬ chainABC.CycleReachable "A" ∧
      TopSort (RangeOrder.stored String) chainABC "A" = some (some ["C", "B", "A"], none) ∧
      ∃ res, TopSort (RangeOrder.stored String) chainABC "A" = some (some res, none) ∧
        ∀ u v, chainABC.ReachableOrEq "A" u → chainABC.Edge u v → Before res v u :=
  ⟨not_cycleReachable_of_rank chainABC sampleRank (by decide) "A", by decide,
    TopSort_acyclic_order (RangeOrder.stored String) chainABC "A"
      (not_cycleReachable_of_rank chainABC sampleRank (by decide) "A")⟩

/-- C2: when some directed cycle (a self-loop included) is reachable from `K`, `TopSort(K)`
fails for every order in which the successor sets are enumerated: it returns the nil
sequence and an error, whose message is `Cycle error: ` followed by the joined keys. -/
theorem TopSort_cycle_fails [ToString Key] (ρ : RangeOrder Key) (g : Graph Key) (K : Key)
    (hcyc : g.CycleReachable K) :
    ∃ err, TopSort ρ g K = some (none, some err) ∧
      err.msg = "Cycle error: " ++ " -> ".intercalate (err.cycle.map toString) := by
  rcases TopSort_cases ρ g K with ⟨c, _, htop⟩ | ⟨t, l, hl, _⟩
  · exact ⟨_, htop, rfl⟩
  · exact absurd hcyc (visitSeq_ok_acyclic ρ g _ K _ _ _ hl)

theorem TopSort_cycle_fails_witness :
    cycleAB.CycleReachable "A" ∧
      ∃ err, TopSort (RangeOrder.reversed String) cycleAB "A" = some (none, some err) ∧
        err.msg = "Cycle error: " ++ " -> ".intercalate (err.cycle.map toString) :=
  ⟨⟨"A", Relation.ReflTransGen.refl,
      Relation.TransGen.head (b := "B") (by decide) (Relation.TransGen.single (by decide))⟩,
    TopSort_cycle_fails (RangeOrder.reversed String) cycleAB "A"
      ⟨"A", Relation.ReflTransGen.refl,
        Relation.TransGen.head (b := "B") (by decide) (Relation.TransGen.single (by decide))⟩⟩

/-- C3: whenever `TopSort(K)` returns an error, the key sequence of the error (the sequence
joined into the message) has at least two keys, starts and ends with the same key, and
every consecutive pair of it is an edge of the graph. -/
theorem TopSort_error_is_cycle [ToString Key] (ρ : RangeOrder Key) (g : Graph Key) (K : Key)
    (res : Option (List Key)) (err : CycleError Key)
    (hfail : TopSort ρ g K = some (res, some err)) :
    2 ≤ err.cycle.length ∧ err.cycle.head? = err.cycle.getLast? ∧
      ∀ i x y, err.cycle.get? i = some x → err.cycle.get? (i + 1) = some y → g.Edge x y := by
  rcases TopSort_cases ρ g K with ⟨c, hc, htop⟩ | ⟨t, l, _, htop⟩
  · rw [htop] at hfail
    simp only [Option.some.injEq, Prod.mk.injEq] at hfail
    obtain ⟨_, rfl⟩ := hfail
    obtain ⟨ext, k, h1, h2, _, h4, _⟩ := visitSeq_error ρ g _ K _ [] c hc
    simp only [List.nil_append] at h1 h2 h4
    have := isCycleOf_drop g ext k h2 (h4 (List.chain'_singleton K))
    rw [← h1] at this
    exact this
  · rw [htop] at hfail
    simp at hfail

theorem TopSort_error_is_cycle_witness :
    TopSort (RangeOrder.stored String) cycleAB "A" =
        some (none, some ⟨["A", "B", "A"], "Cycle error: A -> B -> A"⟩) ∧
      2 ≤ ["A", "B", "A"].length ∧ ["A", "B", "A"].head? = ["A", "B", "A"].getLast? ∧
      ∀ i x y, ["A", "B", "A"].get? i = some x → ["A", "B", "A"].get? (i + 1) = some y →
        cycleAB.Edge x y :=
  ⟨by decide, TopSort_error_is_cycle (RangeOrder.stored String) cycleAB "A" none
    ⟨["A", "B", "A"], "Cycle error: A -> B -> A"⟩ (by decide)⟩

/-- C4: when `TopSort(K)` succeeds, the returned sequence holds exactly `K` and the keys
reachable from `K`, and holds each of them exactly once. -/
theorem TopSort_result_keys [ToString Key] (ρ : RangeOrder Key) (g : Graph Key) (K : Key)
    (res : List Key) (hok : TopSort ρ g K = some (some res, none)) :
    (∀ k, k ∈ res ↔ g.ReachableOrEq K k) ∧ res.Nodup ∧
      ∀ k, g.ReachableOrEq K k → res.count k = 1 := by
  rcases TopSort_cases ρ g K with ⟨c, _, htop⟩ | ⟨t, l, hl, htop⟩
  · rw [htop] at hok
    simp at hok
  · rw [htop] at hok
    simp only [Option.some.injEq, Prod.mk.injEq, and_true] at hok
    subst hok
    obtain ⟨ext, h1, h2, h3, h4, h5⟩ := visitSeq_ok_post ρ g _ K 0 [] [] (t, l) hl
    simp only [List.nil_append] at h1
    have hsf := h5 (succFirst_nil g)
    have hnd := h4 List.nodup_nil
    have hmem : ∀ k, k ∈ l ↔ g.ReachableOrEq K k := by
      intro k
      constructor
      · intro hk
        exact h3 k (h1 ▸ hk)
      · intro hk
        exact succFirst_reach g hsf h2 hk
    exact ⟨hmem, hnd, fun k hk => List.count_eq_one_of_mem hnd ((hmem k).2 hk)⟩

theorem TopSort_result_keys_witness :
    (∀ k, k ∈ ["D", "B", "C", "A"] ↔ diamond.ReachableOrEq "A" k) ∧
      ["D", "B", "C", "A"].Nodup ∧
      ∀ k, diamond.ReachableOrEq "A" k → ["D", "B", "C", "A"].count k = 1 :=
  TopSort_result_keys (RangeOrder.stored String) diamond "A" ["D", "B", "C", "A"] (by decide)

end Graph

end Topsort

/-! ## Claims on subgraph extraction -/

namespace Topsort

namespace Graph

variable {Key : Type} [DecidableEq Key]

/-- C5: a key is a node of `SubgraphFromTarget(t)` exactly when it is `t` or reachable from
`t` in `G`, and a key is a node of `SubgraphFromTargets(ts)` exactly when it is in `ts` or
reachable in `G` from a member of `ts`; both calls return, for every enumeration order. -/
theorem Subgraph_node_set (ρ : RangeOrder Key) (g : Graph Key) (t : Key) (ts : List Key) :
    (∃ sub, SubgraphFromTarget ρ g t = some sub ∧
      ∀ k, sub.ContainsNode k = true ↔ (k = t ∨ g.Reachable t k)) ∧
    (∃ sub, SubgraphFromTargets ρ g ts = some sub ∧
      ∀ k, sub.ContainsNode k = true ↔ (k ∈ ts ∨ ∃ t' ∈ ts, g.Reachable t' k)) := by
  constructor
  · obtain ⟨V, sub, hsub, hG⟩ := SubgraphFromTarget_grown ρ g t
    refine ⟨sub, hsub, ?_⟩
    intro k
    rw [grown_nodes_iff g hG]
    constructor
    · rintro ⟨r, rfl, hrk⟩
      exact Relation.reflTransGen_iff_eq_or_transGen.1 hrk
    · intro h
      exact ⟨t, rfl, Relation.reflTransGen_iff_eq_or_transGen.2 h⟩
  · obtain ⟨V, sub, hsub, hG⟩ := SubgraphFromTargets_grown ρ g ts
    refine ⟨sub, hsub, ?_⟩
    intro k
    rw [grown_nodes_iff g hG]
    constructor
    · rintro ⟨r, hr, hrk⟩
      rcases Relation.reflTransGen_iff_eq_or_transGen.1 hrk with h | h
      · exact Or.inl (h ▸ hr)
      · exact Or.inr ⟨r, hr, h⟩
    · rintro (h | ⟨r, hr, hrk⟩)
      · exact ⟨k, h, Relation.ReflTransGen.refl⟩
      · exact ⟨r, hr, Relation.reflTransGen_iff_eq_or_transGen.2 (Or.inr hrk)⟩

/-- C6, as stated, fails: in the diamond `A -> B`, `A -> C`, `B -> D`, `C -> D` the graph
returned by `SubgraphFromTarget(A)` lacks the edge `C -> D`, although `C` is reachable from
`A` and `C -> D` is an edge of the diamond. -/
theorem SubgraphFromTarget_drops_edge :
    SubgraphFromTarget (RangeOrder.stored String) diamond "A" =
        some ⟨[("A", [("B", true), ("C", true)]), ("B", [("D", true)]), ("D", []), ("C", [])]⟩ ∧
      ¬ ∀ sub, SubgraphFromTarget (RangeOrder.stored String) diamond "A" = some sub →
        ∀ u v, diamond.ReachableOrEq "A" u → diamond.Edge u v → sub.Edge u v := by
  refine ⟨by decide, ?_⟩
  intro h
  have := h ⟨[("A", [("B", true), ("C", true)]), ("B", [("D", true)]), ("D", []), ("C", [])]⟩
    (by decide) "C" "D" (Relation.ReflTransGen.single (by decide)) (by decide)
  revert this
  decide

/-- C6, amended: `SubgraphFromTarget(t)` returns a graph in which every key `v` other than
`t` that is the head of an edge `u -> v` of `G`, with `u` equal to `t` or reachable from
`t`, is a node and has an incoming edge `w -> v` that is an edge of `G` with `w` equal to
`t` or reachable from `t`. -/
theorem SubgraphFromTarget_spanning (ρ : RangeOrder Key) (g : Graph Key) (t : Key) :
    ∃ sub, SubgraphFromTarget ρ g t = some sub ∧
      ∀ u v, g.ReachableOrEq t u → g.Edge u v → v ≠ t →
        sub.ContainsNode v = true ∧ ∃ w, g.ReachableOrEq t w ∧ g.Edge w v ∧ sub.Edge w v := by
  obtain ⟨V, sub, hsub, hG⟩ := SubgraphFromTarget_grown ρ g t
  refine ⟨sub, hsub, ?_⟩
  intro u v hu huv hvt
  have hv : g.ReachableOrEq t v := Relation.ReflTransGen.tail hu huv
  have hvis : isVisited V v = true := (grown_visited_iff g hG v).2 ⟨t, rfl, hv⟩
  refine ⟨(grown_nodes_iff g hG v).2 ⟨t, rfl, hv⟩, ?_⟩
  rcases hG.spanning v hvis rfl with h | ⟨w, hw, _, hwv, hsubwv⟩
  · exact absurd h hvt
  · obtain ⟨r, rfl, hrw⟩ := (grown_visited_iff g hG w).1 hw
    exact ⟨w, hrw, hwv, hsubwv⟩

/-- C7, as stated, fails: for `G = {A -> B}` and the targets `[B, A]` the node `A` has the
successor `B` in `SubgraphFromTarget(A)` and no successor in `SubgraphFromTargets([B, A])`. -/
theorem SubgraphFromTargets_not_union :
    SubgraphFromTargets (RangeOrder.stored String) edgeAB ["B", "A"] =
        some ⟨[("B", []), ("A", [])]⟩ ∧
      SubgraphFromTarget (RangeOrder.stored String) edgeAB "B" = some ⟨[("B", [])]⟩ ∧
      SubgraphFromTarget (RangeOrder.stored String) edgeAB "A" =
        some ⟨[("A", [("B", true)]), ("B", [])]⟩ ∧
      ¬ ∀ m s1 s2, SubgraphFromTargets (RangeOrder.stored String) edgeAB ["B", "A"] = some m →
        SubgraphFromTarget (RangeOrder.stored String) edgeAB "B" = some s1 →
        SubgraphFromTarget (RangeOrder.stored String) edgeAB "A" = some s2 →
        ∀ x v, m.Edge x v ↔ (s1.Edge x v ∨ s2.Edge x v) := by
  refine ⟨by decide, by decide, by decide, ?_⟩
  intro h
  have := (h ⟨[("B", []), ("A", [])]⟩ ⟨[("B", [])]⟩ ⟨[("A", [("B", true)]), ("B", [])]⟩
    (by decide) (by decide) (by decide) "A" "B").2 (Or.inr (by decide))
  revert this
  decide

/-- C7, amended: `SubgraphFromTargets([t1, t2])` has the same node set as the union of
`SubgraphFromTarget(t1)` and `SubgraphFromTarget(t2)`, whatever the enumeration orders of
the three calls, and every edge of it is an edge of `G`. -/
theorem SubgraphFromTargets_union_nodes (ρ ρ1 ρ2 : RangeOrder Key) (g : Graph Key)
    (t1 t2 : Key) :
    ∃ m s1 s2, SubgraphFromTargets ρ g [t1, t2] = some m ∧
      SubgraphFromTarget ρ1 g t1 = some s1 ∧ SubgraphFromTarget ρ2 g t2 = some s2 ∧
      (∀ k, m.ContainsNode k = true ↔ (s1.ContainsNode k = true ∨ s2.ContainsNode k = true)) ∧
      ∀ u v, m.Edge u v → g.Edge u v := by
  obtain ⟨V, m, hm, hG⟩ := SubgraphFromTargets_grown ρ g [t1, t2]
  obtain ⟨V1, s1, hs1, hG1⟩ := SubgraphFromTarget_grown ρ1 g t1
  obtain ⟨V2, s2, hs2, hG2⟩ := SubgraphFromTarget_grown ρ2 g t2
  refine ⟨m, s1, s2, hm, hs1, hs2, ?_, ?_⟩
  · intro k
    rw [grown_nodes_iff g hG, grown_nodes_iff g hG1, grown_nodes_iff g hG2]
    constructor
    · rintro ⟨r, hr, hrk⟩
      simp only [List.mem_cons, List.mem_singleton, List.not_mem_nil, or_false] at hr
      rcases hr with rfl | rfl
      · exact Or.inl ⟨r, rfl, hrk⟩
      · exact Or.inr ⟨r, rfl, hrk⟩
    · rintro (⟨r, rfl, hrk⟩ | ⟨r, rfl, hrk⟩)
      · exact ⟨r, by simp, hrk⟩
      · exact ⟨r, by simp, hrk⟩
  · intro u v huv
    rcases hG.edgesSound u v huv with h | h
    · exact absurd h (not_edge_NewGraph u v)
    · exact h.1

/-- C8: for a key `X` that is not a node of `G`, `SubgraphFromTarget(X)` returns the graph
whose only node is `X`, with an empty successor set.  The call only reads `G`. -/
theorem SubgraphFromTarget_absent (ρ : RangeOrder Key) (g : Graph Key) (X : Key)
    (habsent : g.ContainsNode X = false) :
    ∃ sub, SubgraphFromTarget ρ g X = some sub ∧ sub.Nodes = [(X, [])] ∧
      (∀ k, sub.ContainsNode k = true ↔ k = X) ∧ GoMap.keys (sub.node X) = [] := by
  have hnone : GoMap.find g.Nodes X = none := by
    unfold ContainsNode at habsent
    cases hf : GoMap.find g.Nodes X with
    | none => rfl
    | some n => rw [hf] at habsent; exact Bool.noConfusion habsent
  have hedges : Node.edges ρ 0 (g.node X) = [] := by
    unfold Node.edges node
    rw [hnone]
    exact List.Perm.eq_nil (ρ.perm 0 _)
  have hadd : addNodesToTempGraph ρ g (g.allKeys.length + 1 + 1) (0, [], NewGraph Key) X =
      some (1, [(X, true)], ⟨[(X, [])]⟩) := by
    rw [addNodes_unvisited ρ g _ 0 [] (NewGraph Key) X rfl, hedges]
    rfl
  have hrun : SubgraphFromTarget ρ g X = some ⟨[(X, [])]⟩ := by
    simp only [SubgraphFromTarget, budget]
    rw [show g.allKeys.length + 2 = g.allKeys.length + 1 + 1 from rfl, hadd]
  refine ⟨_, hrun, rfl, ?_, ?_⟩
  · intro k
    unfold ContainsNode
    simp only [GoMap.find]
    by_cases hk : X = k
    · simp [hk]
    · simp [hk, Ne.symm hk]
  · simp [node, GoMap.find, GoMap.keys]

theorem SubgraphFromTarget_absent_witness :
    edgeAB.ContainsNode "X" = false ∧
      ∃ sub, SubgraphFromTarget (RangeOrder.reversed String) edgeAB "X" = some sub ∧
        sub.Nodes = [("X", [])] ∧
        (∀ k, sub.ContainsNode k = true ↔ k = "X") ∧ GoMap.keys (sub.node "X") = [] :=
  ⟨by decide, SubgraphFromTarget_absent (RangeOrder.reversed String) edgeAB "X" (by decide)⟩

end Graph

end Topsort

/-! ## Claims on `AddNode` and `AddEdge` -/

namespace Topsort

namespace Graph

variable {Key : Type} [DecidableEq Key]

/-- C9: `AddEdge(from, to)` returns no error, also when `from = to`; afterwards both keys
are nodes, the successor set of `from` is its previous successor set (empty when `from` was
absent) plus `to`, a newly created `to` other than `from` has an empty successor set, and
every other node is bound exactly as before. -/
theorem AddEdge_effect (g : Graph Key) (from_ to_ : Key) :
    (g.AddEdge from_ to_).2 = none ∧
    (g.AddEdge from_ to_).1.ContainsNode from_ = true ∧
    (g.AddEdge from_ to_).1.ContainsNode to_ = true ∧
    (∀ x, x ∈ GoMap.keys ((g.AddEdge from_ to_).1.node from_) ↔
      (x ∈ GoMap.keys (g.node from_) ∨ x = to_)) ∧
    (g.ContainsNode from_ = false → GoMap.keys (g.node from_) = []) ∧
    (g.ContainsNode to_ = false → to_ ≠ from_ →
      GoMap.find (g.AddEdge from_ to_).1.Nodes to_ = some []) ∧
    (∀ k, k ≠ from_ → (k = to_ → g.ContainsNode to_ = true) →
      GoMap.find (g.AddEdge from_ to_).1.Nodes k = GoMap.find g.Nodes k) := by
  refine ⟨rfl, ?_, ?_, ?_, ?_, ?_, ?_⟩
  · exact (containsNode_AddEdge g from_ to_ from_).2 (Or.inr (Or.inl rfl))
  · exact (containsNode_AddEdge g from_ to_ to_).2 (Or.inr (Or.inr rfl))
  · intro x
    rw [node_AddEdge, if_pos rfl, mem_keys_addEdge]
  · intro h
    unfold ContainsNode at h
    unfold node
    cases hf : GoMap.find g.Nodes from_ with
    | none => rfl
    | some n => rw [hf] at h; exact Bool.noConfusion h
  · intro h hne
    rw [find_AddEdge, if_neg (Ne.symm hne), if_pos rfl]
    unfold ContainsNode at h
    unfold node
    cases hf : GoMap.find g.Nodes to_ with
    | none => rfl
    | some n => rw [hf] at h; exact Bool.noConfusion h
  · intro k hk hto
    rw [find_AddEdge, if_neg (Ne.symm hk)]
    by_cases hkt : to_ = k
    · rw [if_pos hkt]
      have h := hto hkt.symm
      unfold ContainsNode at h
      unfold node
      subst hkt
      cases hf : GoMap.find g.Nodes to_ with
      | none => rw [hf] at h; exact Bool.noConfusion h
      | some n => rfl
    · rw [if_neg hkt]

/-- C10: `AddNode` and `AddEdge` are idempotent: the second of two equal calls leaves the
graph as the first left it, so every node keeps its binding, and `ContainsNode` and
`TopSort` (under any one enumeration order) return the same after the second call as after
the first. -/
theorem AddNode_AddEdge_idempotent [ToString Key] (ρ : RangeOrder Key) (g : Graph Key)
    (k a b : Key) :
    ((g.AddNode k).AddNode k = g.AddNode k ∧
      ∀ x, GoMap.find ((g.AddNode k).AddNode k).Nodes x = GoMap.find (g.AddNode k).Nodes x ∧
        ((g.AddNode k).AddNode k).ContainsNode x = (g.AddNode k).ContainsNode x ∧
        TopSort ρ ((g.AddNode k).AddNode k) x = TopSort ρ (g.AddNode k) x) ∧
    (((g.AddEdge a b).1.AddEdge a b).1 = (g.AddEdge a b).1 ∧
      ∀ x, GoMap.find ((g.AddEdge a b).1.AddEdge a b).1.Nodes x =
          GoMap.find (g.AddEdge a b).1.Nodes x ∧
        ((g.AddEdge a b).1.AddEdge a b).1.ContainsNode x = (g.AddEdge a b).1.ContainsNode x ∧
        TopSort ρ ((g.AddEdge a b).1.AddEdge a b).1 x = TopSort ρ (g.AddEdge a b).1 x) := by
  refine ⟨⟨AddNode_twice g k, fun x => ?_⟩, ⟨AddEdge_twice g a b, fun x => ?_⟩⟩
  · rw [AddNode_twice]
    exact ⟨rfl, rfl, rfl⟩
  · rw [AddEdge_twice]
    exact ⟨rfl, rfl, rfl⟩

end Graph

end Topsort

/-! ## The closure invariant -/

namespace Topsort

namespace Graph

variable {Key : Type} [DecidableEq Key]

theorem closed_NewGraph : (NewGraph Key).Closed :=
  fun u v h => absurd h (not_edge_NewGraph u v)

theorem closed_AddNode (g : Graph Key) (k : Key) (h : g.Closed) : (g.AddNode k).Closed := by
  intro u v huv
  exact (containsNode_AddNode g k v).2 (Or.inl (h u v ((edge_AddNode g k u v).1 huv)))

theorem closed_AddEdge (g : Graph Key) (a b : Key) (h : g.Closed) :
    (g.AddEdge a b).1.Closed := by
  intro u v huv
  rw [containsNode_AddEdge]
  rcases (edge_AddEdge g a b u v).1 huv with h1 | ⟨_, h2⟩
  · exact Or.inl (h u v h1)
  · exact Or.inr (Or.inr h2)

theorem AddEdges_eq (g : Graph Key) (a : Key) (ks : List Key) :
    g.AddEdges a ks = (g.AddEdgesOneByOne a ks, none) := by
  induction ks generalizing g with
  | nil => rfl
  | cons k ks ih =>
    have h : g.AddEdge a k = ((g.AddEdge a k).1, none) := rfl
    rw [AddEdges, h]
    simp only
    rw [ih]
    rfl

theorem closed_oneByOne (a : Key) (ks : List Key) :
    ∀ g : Graph Key, g.Closed → (g.AddEdgesOneByOne a ks).Closed := by
  induction ks with
  | nil => intro g h; exact h
  | cons k ks ih =>
    intro g h
    exact ih _ (closed_AddEdge g a k h)

theorem closed_perform (g : Graph Key) (c : Call Key) (h : g.Closed) : (g.perform c).Closed := by
  cases c with
  | addNode k => exact closed_AddNode g k h
  | addEdge a b => exact closed_AddEdge g a b h
  | addEdges a ks =>
    show (g.AddEdges a ks).1.Closed
    rw [AddEdges_eq]
    exact closed_oneByOne a ks g h

theorem closed_performAll (calls : List (Call Key)) :
    ∀ g : Graph Key, g.Closed → (g.performAll calls).Closed := by
  induction calls with
  | nil => intro g h; exact h
  | cons c cs ih =>
    intro g h
    exact ih _ (closed_perform g c h)

/-- The graph built by a run of `addNodesToTempGraph` from the empty state is closed. -/
theorem closed_of_grown (g : Graph Key) {R : Key → Prop} {V' : GoMap Key Bool}
    {T' : Graph Key} (h : Grown g R (fun _ => False) [] (NewGraph Key) V' T') : T'.Closed := by
  intro u v huv
  rcases h.edgesSound u v huv with h0 | ⟨_, _, _, hv, hnv⟩
  · exact absurd h0 (not_edge_NewGraph u v)
  · exact (h.nodes v).2 (Or.inr ⟨hv, hnv⟩)

end Graph

end Topsort

/-! ## Claims on the closure invariant, `AddNode` and `AddEdges` -/

namespace Topsort

namespace Graph

variable {Key : Type} [DecidableEq Key]

/-- C11: closure invariant.  In every graph obtained from `NewGraph()` by a finite sequence
of `AddNode`, `AddEdge` and `AddEdges` calls, every key that occurs in a successor set is a
node; the graphs returned by `SubgraphFromTarget` and `SubgraphFromTargets` are closed in
the same way, whatever the source graph and the enumeration order. -/
theorem closure_invariant (ρ : RangeOrder Key) (calls : List (Call Key)) (g : Graph Key)
    (t : Key) (ts : List Key) :
    (∀ u v, ((NewGraph Key).performAll calls).Edge u v →
      ((NewGraph Key).performAll calls).ContainsNode v = true) ∧
    (∃ sub, SubgraphFromTarget ρ g t = some sub ∧
      ∀ u v, sub.Edge u v → sub.ContainsNode v = true) ∧
    (∃ sub, SubgraphFromTargets ρ g ts = some sub ∧
      ∀ u v, sub.Edge u v → sub.ContainsNode v = true) := by
  refine ⟨closed_performAll calls _ closed_NewGraph, ?_, ?_⟩
  · obtain ⟨V, sub, hsub, hG⟩ := SubgraphFromTarget_grown ρ g t
    exact ⟨sub, hsub, closed_of_grown g hG⟩
  · obtain ⟨V, sub, hsub, hG⟩ := SubgraphFromTargets_grown ρ g ts
    exact ⟨sub, hsub, closed_of_grown g hG⟩

/-- C12: `AddNode(k)` adds `k` with an empty successor set when `k` is not a node and
changes nothing when `k` is a node; afterwards `ContainsNode(k)` is true, and every other
key is bound as before. -/
theorem AddNode_effect (g : Graph Key) (k : Key) :
    (g.ContainsNode k = false → GoMap.find (g.AddNode k).Nodes k = some []) ∧
    (g.ContainsNode k = true → g.AddNode k = g) ∧
    (g.AddNode k).ContainsNode k = true ∧
    (∀ x, x ≠ k → GoMap.find (g.AddNode k).Nodes x = GoMap.find g.Nodes x ∧
      (g.AddNode k).ContainsNode x = g.ContainsNode x) := by
  refine ⟨?_, AddNode_of_contains g k, ?_, ?_⟩
  · intro h
    rw [find_AddNode]
    unfold ContainsNode at h
    cases hf : GoMap.find g.Nodes k with
    | none => simp
    | some n => rw [hf] at h; exact Bool.noConfusion h
  · exact (containsNode_AddNode g k k).2 (Or.inr rfl)
  · intro x hx
    have hfind : GoMap.find (g.AddNode k).Nodes x = GoMap.find g.Nodes x := by
      rw [find_AddNode, if_neg (fun h => hx h.1.symm)]
    refine ⟨hfind, ?_⟩
    unfold ContainsNode
    rw [hfind]

/-- C13: `AddEdges(from, ks)` returns no error and leaves the graph that calling
`AddEdge(from, k)` for each `k` of `ks` in list order leaves; for the empty list the graph
is unchanged, so `from` is not created. -/
theorem AddEdges_refines (g : Graph Key) (from_ : Key) (ks : List Key) :
    (g.AddEdges from_ ks).2 = none ∧
    (g.AddEdges from_ ks).1 = g.AddEdgesOneByOne from_ ks ∧
    (g.AddEdges from_ []).1 = g ∧
    (g.AddEdges from_ []).1.ContainsNode from_ = g.ContainsNode from_ := by
  rw [AddEdges_eq]
  exact ⟨rfl, rfl, rfl, rfl⟩

end Graph

end Topsort

/-! ## Further claims on subgraph extraction and `TopSort` -/

namespace Topsort

namespace Graph

variable {Key : Type} [DecidableEq Key]

theorem edges_of_absent (ρ : RangeOrder Key) (g : Graph Key) (tick : Nat) (key : Key)
    (h : g.ContainsNode key = false) : Node.edges ρ tick (g.node key) = [] := by
  have hnone : GoMap.find g.Nodes key = none := by
    unfold ContainsNode at h
    cases hf : GoMap.find g.Nodes key with
    | none => rfl
    | some n => rw [hf] at h; exact Bool.noConfusion h
  unfold Node.edges node
  rw [hnone]
  exact List.Perm.eq_nil (ρ.perm tick _)

/-- One step of the traversal on sequences. -/
theorem visitSeq_succ (ρ : RangeOrder Key) (g : Graph Key) (fuel : Nat) (key : Key)
    (tick : Nat) (results path : List Key) :
    visitSeq ρ g (fuel + 1) key (tick, results) path =
      if key ∈ path then some (.error (path.drop (path.indexOf key) ++ [key]))
      else
        match forEdges (fun edge st => visitSeq ρ g fuel edge st (path ++ [key]))
            (Node.edges ρ tick (g.node key)) (tick + 1, results) with
        | some (.ok (tick, results)) =>
          some (.ok (tick, if key ∈ results then results else results ++ [key]))
        | some (.error cycle) => some (.error cycle)
        | none => none := rfl

/-- C17: every edge `u -> v` of the graph returned by `SubgraphFromTarget(t)` or by
`SubgraphFromTargets(ts)` is an edge of `G`, and both `u` and `v` are targets or reachable
from a target. -/
theorem Subgraph_edges_sound (ρ : RangeOrder Key) (g : Graph Key) (t : Key) (ts : List Key) :
    (∃ sub, SubgraphFromTarget ρ g t = some sub ∧
      ∀ u v, sub.Edge u v →
        g.Edge u v ∧ (u = t ∨ g.Reachable t u) ∧ (v = t ∨ g.Reachable t v)) ∧
    (∃ sub, SubgraphFromTargets ρ g ts = some sub ∧
      ∀ u v, sub.Edge u v →
        g.Edge u v ∧ (u ∈ ts ∨ ∃ t' ∈ ts, g.Reachable t' u) ∧
          (v ∈ ts ∨ ∃ t' ∈ ts, g.Reachable t' v)) := by
  constructor
  · obtain ⟨V, sub, hsub, hG⟩ := SubgraphFromTarget_grown ρ g t
    refine ⟨sub, hsub, ?_⟩
    intro u v huv
    rcases hG.edgesSound u v huv with h0 | ⟨he, hu, _, hv, _⟩
    · exact absurd h0 (not_edge_NewGraph u v)
    · obtain ⟨r, rfl, hru⟩ := (grown_visited_iff g hG u).1 hu
      obtain ⟨r', rfl, hrv⟩ := (grown_visited_iff g hG v).1 hv
      exact ⟨he, Relation.reflTransGen_iff_eq_or_transGen.1 hru,
        Relation.reflTransGen_iff_eq_or_transGen.1 hrv⟩
  · obtain ⟨V, sub, hsub, hG⟩ := SubgraphFromTargets_grown ρ g ts
    refine ⟨sub, hsub, ?_⟩
    intro u v huv
    have hkey : ∀ k, isVisited V k = true → k ∈ ts ∨ ∃ t' ∈ ts, g.Reachable t' k := by
      intro k hk
      obtain ⟨r, hr, hrk⟩ := (grown_visited_iff g hG k).1 hk
      rcases Relation.reflTransGen_iff_eq_or_transGen.1 hrk with h | h
      · exact Or.inl (h ▸ hr)
      · exact Or.inr ⟨r, hr, h⟩
    rcases hG.edgesSound u v huv with h0 | ⟨he, hu, _, hv, _⟩
    · exact absurd h0 (not_edge_NewGraph u v)
    · exact ⟨he, hkey u hu, hkey v hv⟩

/-- C18: for a key `K` that is not a node of `G`, `TopSort(K)` returns the one-element
sequence `[K]` and no error, whatever the enumeration order.  The call only reads `G`. -/
theorem TopSort_absent_key [ToString Key] (ρ : RangeOrder Key) (g : Graph Key) (K : Key)
    (habsent : g.ContainsNode K = false) :
    TopSort ρ g K = some (some [K], none) := by
  have hseq : visitSeq ρ g g.budget K (0, []) [] = some (.ok (1, [K])) := by
    show visitSeq ρ g (g.allKeys.length + 1 + 1) K (0, []) [] = _
    rw [visitSeq_succ, edges_of_absent ρ g 0 K habsent]
    simp [forEdges]
  rcases TopSort_cases ρ g K with ⟨c, hc, _⟩ | ⟨t, l, hl, htop⟩
  · rw [hseq] at hc
    simp at hc
  · rw [hseq] at hl
    simp only [Option.some.injEq, Except.ok.injEq, Prod.mk.injEq] at hl
    rw [htop, ← hl.2]

theorem TopSort_absent_key_witness :
    edgeAB.ContainsNode "X" = false ∧
      TopSort (RangeOrder.reversed String) edgeAB "X" = some (some ["X"], none) :=
  ⟨by decide, TopSort_absent_key (RangeOrder.reversed String) edgeAB "X" (by decide)⟩

/-- C19: whenever `TopSort(K)` returns an error, the key sequence of the error is a simple
cycle: its keys other than the last are pairwise distinct, its last key is its first key,
and each of its keys is `K` or reachable from `K`. -/
theorem TopSort_error_simple_cycle [ToString Key] (ρ : RangeOrder Key) (g : Graph Key)
    (K : Key) (res : Option (List Key)) (err : CycleError Key)
    (hfail : TopSort ρ g K = some (res, some err)) :
    err.cycle.dropLast.Nodup ∧ err.cycle ≠ [] ∧ err.cycle.getLast? = err.cycle.head? ∧
      ∀ x ∈ err.cycle, (x = K ∨ g.Reachable K x) := by
  rcases TopSort_cases ρ g K with ⟨c, hc, htop⟩ | ⟨t, l, _, htop⟩
  · rw [htop] at hfail
    simp only [Option.some.injEq, Prod.mk.injEq] at hfail
    obtain ⟨_, rfl⟩ := hfail
    obtain ⟨ext, k, h1, h2, h3, h4, h5⟩ := visitSeq_error ρ g _ K _ [] c hc
    simp only [List.nil_append] at h1 h2 h3 h4 h5
    have hnd : ext.Nodup := h3 List.nodup_nil
    have hcyc := isCycleOf_drop g ext k h2 (h4 (List.chain'_singleton K))
    rw [← h1] at hcyc
    refine ⟨?_, ?_, hcyc.2.1.symm, ?_⟩
    · show c.dropLast.Nodup
      rw [h1, List.dropLast_concat]
      exact hnd.sublist (List.drop_sublist _ _)
    · show c ≠ []
      rw [h1]
      simp
    · intro x hx
      have hx' : x ∈ c := hx
      rw [h1] at hx'
      apply Relation.reflTransGen_iff_eq_or_transGen.1
      rcases List.mem_append.1 hx' with hx' | hx'
      · exact h5 x (List.mem_append_left _ (List.mem_of_mem_drop hx'))
      · exact h5 x (List.mem_append_right _ hx')
  · rw [htop] at hfail
    simp at hfail

theorem TopSort_error_simple_cycle_witness :
    ["A", "B", "A"].dropLast.Nodup ∧ ["A", "B", "A"] ≠ [] ∧
      ["A", "B", "A"].getLast? = ["A", "B", "A"].head? ∧
      ∀ x ∈ ["A", "B", "A"], (x = "A" ∨ cycleAB.Reachable "A" x) :=
  TopSort_error_simple_cycle (RangeOrder.stored String) cycleAB "A" none
    ⟨["A", "B", "A"], "Cycle error: A -> B -> A"⟩ (by decide)

end Graph

end Topsort

/-! ## Claim on `orderedset` -/

namespace Topsort

namespace orderedset

variable {Key : Type} [DecidableEq Key]

theorem inv_applySetOps (ops : List (SetOp Key)) :
    ∀ s : orderedset Key, s.Inv → (applySetOps s ops).Inv := by
  induction ops with
  | nil => intro s h; exact h
  | cons op ops ih =>
    intro s h
    cases op with
    | add item => exact ih _ (add_inv h item)
    | copy => exact ih _ (copy_inv h)

theorem add_of_mem {s : orderedset Key} (h : s.Inv) {k : Key} (hk : k ∈ s.items) :
    s.add k = (s, false) := by
  unfold add
  cases hf : GoMap.find s.indexes k with
  | none => exact absurd hk ((indexes_eq_none_iff h k).1 hf)
  | some i => rfl

/-- C20: every ordered set obtained from `newOrderedSet` by `add` and `copy` operations has
no duplicate item, has `length` equal to the number of items, and has in `indexes` exactly
its items, each bound to its position; on such a set `add(k)` returns true and appends `k`
when `k` is absent and returns false and changes nothing otherwise, `copy` returns a set
with the same items in the same order, and `index(k)` is the position of `k`, or `-1` when
`k` is absent. -/
theorem orderedset_invariant (ops : List (SetOp Key)) (s : orderedset Key)
    (hs : s = applySetOps (newOrderedSet Key) ops) (k : Key) :
    s.items.Nodup ∧ s.length = (s.items.length : Int) ∧
    (∀ x, (GoMap.find s.indexes x).isSome = true ↔ x ∈ s.items) ∧
    (∀ x i, GoMap.find s.indexes x = some i ↔
      ∃ n : Nat, i = (n : Int) ∧ s.items.get? n = some x) ∧
    (k ∉ s.items → (s.add k).2 = true ∧ (s.add k).1.items = s.items ++ [k]) ∧
    (k ∈ s.items → (s.add k).2 = false ∧ (s.add k).1 = s) ∧
    s.copy.items = s.items ∧
    (k ∈ s.items → s.index k = (s.items.indexOf k : Int) ∧
      s.items.get? (s.items.indexOf k) = some k) ∧
    (k ∉ s.items → s.index k = -1) := by
  have hinv : s.Inv := hs ▸ inv_applySetOps ops _ inv_new
  refine ⟨hinv.2.1, hinv.1, ?_, hinv.2.2, ?_, ?_, copy_items hinv, ?_, ?_⟩
  · intro x
    have hnone := indexes_eq_none_iff hinv x
    cases hf : GoMap.find s.indexes x with
    | none =>
      rw [hf] at hnone
      simpa using hnone.1 rfl
    | some i =>
      rw [hf] at hnone
      simp only [Option.isSome_some, true_iff]
      by_contra hx
      exact Option.noConfusion (hnone.2 hx)
  · intro hk
    refine ⟨(add_snd hinv k).2 hk, ?_⟩
    rw [add_items hinv k, if_neg hk]
  · intro hk
    rw [add_of_mem hinv hk]
    exact ⟨rfl, rfl⟩
  · intro hk
    exact ⟨index_of_mem hinv hk, List.indexOf_get? hk⟩
  · intro hk
    exact index_of_not_mem hinv hk

theorem orderedset_invariant_witness :
    (⟨[("A", 0), ("B", 1)], ["A", "B"], 2⟩ : orderedset String) =
        applySetOps (newOrderedSet String) [.add "A", .copy, .add "B", .add "A"] ∧
      ["A", "B"].Nodup ∧ (2 : Int) = (["A", "B"].length : Int) ∧
      (∀ x, (GoMap.find [("A", (0 : Int)), ("B", 1)] x).isSome = true ↔ x ∈ ["A", "B"]) ∧
      (∀ x i, GoMap.find [("A", (0 : Int)), ("B", 1)] x = some i ↔
        ∃ n : Nat, i = (n : Int) ∧ ["A", "B"].get? n = some x) ∧
      ("B" ∉ ["A", "B"] →
        ((⟨[("A", 0), ("B", 1)], ["A", "B"], 2⟩ : orderedset String).add "B").2 = true ∧
        ((⟨[("A", 0), ("B", 1)], ["A", "B"], 2⟩ : orderedset String).add "B").1.items =
          ["A", "B"] ++ ["B"]) ∧
      ("B" ∈ ["A", "B"] →
        ((⟨[("A", 0), ("B", 1)], ["A", "B"], 2⟩ : orderedset String).add "B").2 = false ∧
        ((⟨[("A", 0), ("B", 1)], ["A", "B"], 2⟩ : orderedset String).add "B").1 =
          ⟨[("A", 0), ("B", 1)], ["A", "B"], 2⟩) ∧
      (⟨[("A", 0), ("B", 1)], ["A", "B"], 2⟩ : orderedset String).copy.items = ["A", "B"] ∧
      ("B" ∈ ["A", "B"] →
        (⟨[("A", 0), ("B", 1)], ["A", "B"], 2⟩ : orderedset String).index "B" =
          (["A", "B"].indexOf "B" : Int) ∧
        ["A", "B"].get? (["A", "B"].indexOf "B") = some "B") ∧
      ("B" ∉ ["A", "B"] →
        (⟨[("A", 0), ("B", 1)], ["A", "B"], 2⟩ : orderedset String).index "B" = -1) :=
  ⟨rfl, orderedset_invariant [.add "A", .copy, .add "B", .add "A"]
    ⟨[("A", 0), ("B", 1)], ["A", "B"], 2⟩ (by rfl) "B"⟩

end orderedset

end Topsort

/-! ## Claim on the cycle report -/

namespace Topsort

theorem edges_of_singleton {Key : Type} (ρ : RangeOrder Key) (tick : Nat) (n : Node Key)
    (k : Key) (h : GoMap.keys n = [k]) : Node.edges ρ tick n = [k] := by
  unfold Node.edges
  rw [h]
  exact List.perm_singleton.1 (ρ.perm tick [k])

namespace Graph

variable {Key : Type} [DecidableEq Key]

theorem visitSeq_cycleAB (ρ : RangeOrder String) :
    visitSeq ρ cycleAB cycleAB.budget "A" (0, []) [] = some (.error ["A", "B", "A"]) := by
  have hb : cycleAB.budget = 3 + 1 + 1 + 1 := by decide
  have hA : ∀ t, Node.edges ρ t (cycleAB.node "A") = ["B"] :=
    fun t => edges_of_singleton ρ t _ "B" (by decide)
  have hB : ∀ t, Node.edges ρ t (cycleAB.node "B") = ["A"] :=
    fun t => edges_of_singleton ρ t _ "A" (by decide)
  rw [hb, visitSeq_succ, if_neg (by decide), hA]
  simp only [forEdges]
  rw [visitSeq_succ, if_neg (by decide), hB]
  simp only [forEdges]
  rw [visitSeq_succ, if_pos (by decide)]
  rfl

/-- C15: when `visit` is called on a key that is already in the `visited` set of the
current path, it reports the part of the path sequence that starts at the first occurrence
of that key, followed by the key once more, with the message `Cycle error: ` followed by
the stringified keys of that sequence joined by ` -> `; for the graph with the edges
`A -> B` and `B -> A`, `TopSort(A)` fails with the message `Cycle error: A -> B -> A`,
whatever the enumeration order. -/
theorem visit_cycle_report [ToString Key] (ρ : RangeOrder Key) (g : Graph Key) (fuel : Nat)
    (key : Key) (st : Nat × orderedset Key) (vis : orderedset Key) (hinv : vis.Inv)
    (hk : key ∈ vis.items) :
    visit ρ g (fuel + 1) key st (some vis) =
        some (.error ⟨vis.items.drop (vis.items.indexOf key) ++ [key],
          "Cycle error: " ++ " -> ".intercalate
            ((vis.items.drop (vis.items.indexOf key) ++ [key]).map toString)⟩) ∧
      ∀ ρ' : RangeOrder String, TopSort ρ' cycleAB "A" =
        some (none, some ⟨["A", "B", "A"], "Cycle error: A -> B -> A"⟩) := by
  constructor
  · obtain ⟨tick, results⟩ := st
    have hidx := orderedset.index_of_mem hinv hk
    have hle : vis.items.indexOf key ≤ vis.items.length := List.indexOf_le_length
    rw [visit_succ, orderedset.add_of_mem hinv hk]
    simp only [Bool.not_false, if_true, hidx]
    rw [if_neg (by omega)]
    simp
  · intro ρ'
    rcases TopSort_cases ρ' cycleAB "A" with ⟨c, hc, htop⟩ | ⟨t, l, hl, _⟩
    · rw [visitSeq_cycleAB] at hc
      simp only [Option.some.injEq, Except.error.injEq] at hc
      rw [htop, ← hc]
      rfl
    · rw [visitSeq_cycleAB] at hl
      simp at hl

theorem visit_cycle_report_witness :
    (⟨[("A", 0), ("B", 1)], ["A", "B"], 2⟩ : orderedset String).Inv ∧
      "A" ∈ ["A", "B"] ∧
      visit (RangeOrder.stored String) cycleAB (0 + 1) "A" (2, newOrderedSet String)
          (some ⟨[("A", 0), ("B", 1)], ["A", "B"], 2⟩) =
        some (.error ⟨["A", "B"].drop (["A", "B"].indexOf "A") ++ ["A"],
          "Cycle error: " ++ " -> ".intercalate
            ((["A", "B"].drop (["A", "B"].indexOf "A") ++ ["A"]).map toString)⟩) ∧
      ∀ ρ' : RangeOrder String, TopSort ρ' cycleAB "A" =
        some (none, some ⟨["A", "B", "A"], "Cycle error: A -> B -> A"⟩) :=
  have hinv : (⟨[("A", 0), ("B", 1)], ["A", "B"], 2⟩ : orderedset String).Inv :=
    orderedset.add_inv (orderedset.add_inv orderedset.inv_new "A") "B"
  ⟨hinv, by decide,
    visit_cycle_report (RangeOrder.stored String) cycleAB 0 "A" (2, newOrderedSet String)
      ⟨[("A", 0), ("B", 1)], ["A", "B"], 2⟩ hinv (by decide)⟩

end Graph

end Topsort

/-! ## Claim on termination -/

namespace Topsort

namespace Graph

variable {Key : Type} [DecidableEq Key]

/-- The traversal on sequences returns when the fuel exceeds the number of nodes that are
not on the path. -/
theorem visitSeq_some_nodes (ρ : RangeOrder Key) (g : Graph Key) (fuel : Nat) :
    ∀ (key : Key) (st : Nat × List Key) (path : List Key), path.Nodup →
      (∀ x ∈ path, x ∈ (GoMap.keys g.Nodes).dedup) →
      g.numNodes + 1 ≤ fuel + path.length →
      ∃ r, visitSeq ρ g fuel key st path = some r := by
  induction fuel with
  | zero =>
    intro key st path hnd hsub hlen
    have := (hnd.subperm hsub).length_le
    unfold numNodes at hlen
    omega
  | succ fuel ih =>
    intro key st path hnd hsub hlen
    obtain ⟨tick, results⟩ := st
    rw [visitSeq_succ]
    by_cases hk : key ∈ path
    · rw [if_pos hk]
      exact ⟨_, rfl⟩
    · rw [if_neg hk]
      obtain ⟨r, hr⟩ := forEdges_some
        (fun edge st => visitSeq ρ g fuel edge st (path ++ [key]))
        (Node.edges ρ tick (g.node key))
        (fun e he s => ih e s (path ++ [key]) (nodup_snoc hnd hk)
          (by
            intro x hx
            rcases List.mem_append.1 hx with hx | hx
            · exact hsub x hx
            · rw [List.mem_singleton] at hx
              subst hx
              exact List.mem_dedup.2 (edge_src_mem_keys g ((mem_edges ρ g tick x e).1 he)))
          (by rw [List.length_append, List.length_singleton]; omega))
        (tick + 1, results)
      rw [hr]
      rcases r with c | ⟨t1, r1⟩
      · exact ⟨_, rfl⟩
      · exact ⟨_, rfl⟩

theorem numNodes_lt_budget (g : Graph Key) : g.numNodes + 1 ≤ g.budget := by
  have h1 : g.numNodes ≤ g.Nodes.length := by
    unfold numNodes
    calc (GoMap.keys g.Nodes).dedup.length ≤ (GoMap.keys g.Nodes).length :=
          (List.dedup_sublist _).length_le
      _ = g.Nodes.length := by simp [GoMap.keys]
  have h2 : g.Nodes.length ≤ g.allKeys.length := by
    unfold allKeys
    induction g.Nodes with
    | nil => simp
    | cons hd tl ih =>
      simp only [List.flatMap_cons, List.length_cons, List.length_append]
      omega
  unfold budget
  omega

/-- C14: `TopSort` terminates on every graph and every key, cyclic graphs and absent keys
included.  A call of `visit` that recurses hands down a `visited` set that is the received
one extended by a key that was not in it, so a recursion depth of the number of nodes plus
one is never exceeded: with that fuel, and with any larger one, the traversal returns, and
`TopSort` returns either a sequence or a Cycle error. -/
theorem TopSort_terminates [ToString Key] (ρ : RangeOrder Key) (g : Graph Key) (K : Key) :
    (∀ (vis : orderedset Key) (key : Key), vis.Inv → (vis.add key).2 = true →
      key ∉ vis.items ∧ (vis.add key).1.copy.items = vis.items ++ [key]) ∧
    (∃ r, visit ρ g (g.numNodes + 1) K (0, newOrderedSet Key) none = some r ∧
      (∀ extra, visit ρ g (g.numNodes + 1 + extra) K (0, newOrderedSet Key) none = some r) ∧
      TopSort ρ g K =
        match r with
        | .error err => some (none, some err)
        | .ok (_, results) => some (some results.items, none)) ∧
    ((∃ res, TopSort ρ g K = some (some res, none)) ∨
      (∃ err, TopSort ρ g K = some (none, some err))) := by
  refine ⟨?_, ?_, ?_⟩
  · intro vis key hinv hadd
    have hk : key ∉ vis.items := (orderedset.add_snd hinv key).1 hadd
    refine ⟨hk, ?_⟩
    rw [orderedset.copy_items (orderedset.add_inv hinv key), orderedset.add_items hinv key,
      if_neg hk]
  · obtain ⟨r, hr⟩ := visitSeq_some_nodes ρ g (g.numNodes + 1) K (0, []) [] List.nodup_nil
      (fun x hx => absurd hx (List.not_mem_nil x)) (by simp)
    have href := visit_refines ρ g (g.numNodes + 1) K 0 (newOrderedSet Key)
      (newOrderedSet Key) orderedset.inv_new orderedset.inv_new
    rw [← visit_nil] at href
    have hitems : (newOrderedSet Key).items = [] := rfl
    rw [hitems, hr] at href
    rcases hv : visit ρ g (g.numNodes + 1) K (0, newOrderedSet Key) none with _ | r1
    · rw [hv] at href
      exact href.elim
    · refine ⟨r1, rfl, fun extra => visit_fuel_mono ρ g _ extra K _ none r1 hv, ?_⟩
      have hb := visit_fuel_mono ρ g _ (g.budget - (g.numNodes + 1)) K _ none r1 hv
      rw [Nat.add_sub_cancel' (numNodes_lt_budget g)] at hb
      simp only [TopSort, hb]
      rcases r1 with err | ⟨t, results⟩ <;> rfl
  · rcases TopSort_cases ρ g K with ⟨c, _, htop⟩ | ⟨t, l, _, htop⟩
    · exact Or.inr ⟨_, htop⟩
    · exact Or.inl ⟨l, htop⟩

end Graph

end Topsort

/-! ## The extracted graph is a forest -/

namespace Topsort

namespace GoMap

variable {K V : Type} [DecidableEq K]

theorem mem_put (m : GoMap K V) (k k' : K) (v v' : V) (h : (k, v) ∈ put m k' v') :
    (k, v) ∈ m ∨ (k = k' ∧ v = v') := by
  induction m with
  | nil =>
    simp only [put, List.mem_singleton, Prod.mk.injEq] at h
    exact Or.inr h
  | cons hd tl ih =>
    obtain ⟨a, b⟩ := hd
    by_cases hak : a = k'
    · simp only [put, if_pos hak, List.mem_cons, Prod.mk.injEq] at h
      rcases h with h | h
      · exact Or.inr h
      · exact Or.inl (List.mem_cons_of_mem _ h)
    · simp only [put, if_neg hak, List.mem_cons, Prod.mk.injEq] at h
      rcases h with h | h
      · exact Or.inl (by simp [h.1, h.2])
      · rcases ih h with h | h
        · exact Or.inl (List.mem_cons_of_mem _ h)
        · exact Or.inr h

end GoMap

namespace Graph

variable {Key : Type} [DecidableEq Key]

theorem isVisited_iff_mem {V : GoMap Key Bool} (h : ∀ k b, (k, b) ∈ V → b = true) (k : Key) :
    isVisited V k = true ↔ k ∈ GoMap.keys V := by
  unfold isVisited
  constructor
  · intro hv
    by_contra hk
    rw [(GoMap.find_eq_none_iff V k).2 hk] at hv
    exact Bool.noConfusion hv
  · intro hk
    cases hf : GoMap.find V k with
    | none => exact absurd hk ((GoMap.find_eq_none_iff V k).1 hf)
    | some b =>
      rw [h k b (GoMap.mem_of_find V k b hf)]
      rfl

theorem forest_weaken {pending : Key → Prop} {V : GoMap Key Bool} {T : Graph Key}
    (h : Forest (fun _ => False) V T) : Forest pending V T where
  allTrue := h.allTrue
  src := h.src
  tgt := by
    intro u v huv
    rcases h.tgt u v huv with h0 | h0
    · exact Or.inl h0
    · exact h0.elim
  order := h.order
  unique := h.unique

theorem forest_of_visited {node : Key} {V : GoMap Key Bool} {T : Graph Key}
    (h : Forest (fun k => k = node) V T) (hnode : node ∈ GoMap.keys V) :
    Forest (fun _ => False) V T where
  allTrue := h.allTrue
  src := h.src
  tgt := by
    intro u v huv
    rcases h.tgt u v huv with h0 | h0
    · exact Or.inl h0
    · exact Or.inl (h0 ▸ hnode)
  order := h.order
  unique := h.unique

/-- The state at the start of the loop of `addNodesToTempGraph`. -/
theorem forest_enter {node : Key} {V : GoMap Key Bool} {T : Graph Key}
    (h : Forest (fun k => k = node) V T) (hnode : node ∉ GoMap.keys V) :
    Forest (fun _ => False) (GoMap.put V node true) (T.AddNode node) := by
  have hkeys : GoMap.keys (GoMap.put V node true) = GoMap.keys V ++ [node] := by
    rw [GoMap.keys_put, if_neg hnode]
  refine ⟨?_, ?_, ?_, ?_, ?_⟩
  · intro k b hkb
    rcases GoMap.mem_put V k node b true hkb with h0 | h0
    · exact h.allTrue k b h0
    · exact h0.2
  · intro u v huv
    rw [hkeys]
    exact List.mem_append_left _ (h.src u v ((edge_AddNode T node u v).1 huv))
  · intro u v huv
    rw [hkeys]
    rcases h.tgt u v ((edge_AddNode T node u v).1 huv) with h0 | h0
    · exact Or.inl (List.mem_append_left _ h0)
    · exact Or.inl (List.mem_append_right _ (by simp [h0]))
  · intro u v huv _
    have huv' := (edge_AddNode T node u v).1 huv
    have hu := h.src u v huv'
    rw [hkeys, List.indexOf_append_of_mem hu]
    by_cases hv : v ∈ GoMap.keys V
    · rw [List.indexOf_append_of_mem hv]
      exact h.order u v huv' hv
    · rw [List.indexOf_append_of_not_mem hv]
      have := List.indexOf_lt_length.2 hu
      omega
  · intro u u' v h1 h2
    exact h.unique u u' v ((edge_AddNode T node u v).1 h1) ((edge_AddNode T node u' v).1 h2)

/-- The state after `tempGraph.AddEdge(node, edge)` for an unvisited `edge`. -/
theorem forest_addEdge {node e : Key} {W : GoMap Key Bool} {Tc : Graph Key}
    (h : Forest (fun _ => False) W Tc) (hnode : node ∈ GoMap.keys W)
    (he : e ∉ GoMap.keys W) : Forest (fun k => k = e) W (Tc.AddEdge node e).1 := by
  have hold : ∀ u v, Tc.Edge u v → v ∈ GoMap.keys W := by
    intro u v huv
    rcases h.tgt u v huv with h0 | h0
    · exact h0
    · exact h0.elim
  refine ⟨h.allTrue, ?_, ?_, ?_, ?_⟩
  · intro u v huv
    rcases (edge_AddEdge Tc node e u v).1 huv with h0 | ⟨h0, _⟩
    · exact h.src u v h0
    · exact h0 ▸ hnode
  · intro u v huv
    rcases (edge_AddEdge Tc node e u v).1 huv with h0 | ⟨_, h0⟩
    · exact Or.inl (hold u v h0)
    · exact Or.inr h0
  · intro u v huv hv
    rcases (edge_AddEdge Tc node e u v).1 huv with h0 | ⟨_, h0⟩
    · exact h.order u v h0 hv
    · exact absurd (h0 ▸ hv) he
  · intro u u' v h1 h2
    rcases (edge_AddEdge Tc node e u v).1 h1 with h1 | ⟨h1u, h1v⟩
    · rcases (edge_AddEdge Tc node e u' v).1 h2 with h2 | ⟨_, h2v⟩
      · exact h.unique u u' v h1 h2
      · exact absurd (h2v ▸ hold u v h1) he
    · rcases (edge_AddEdge Tc node e u' v).1 h2 with h2 | ⟨h2u, _⟩
      · exact absurd (h1v ▸ hold u' v h2) he
      · rw [h1u, h2u]

/-- A call of `addNodesToTempGraph` that returns keeps the forest shape. -/
theorem addNodes_forest (ρ : RangeOrder Key) (g : Graph Key) (fuel : Nat) :
    ∀ (tick : Nat) (V : GoMap Key Bool) (T : Graph Key) (node : Key)
      (st' : Nat × GoMap Key Bool × Graph Key),
      addNodesToTempGraph ρ g fuel (tick, V, T) node = some st' →
      Forest (fun k => k = node) V T → Forest (fun _ => False) st'.2.1 st'.2.2 := by
  induction fuel with
  | zero => intro tick V T node st' h; simp [addNodesToTempGraph] at h
  | succ fuel ih =>
    intro tick V T node st' h hF
    rcases Bool.eq_false_or_eq_true (isVisited V node) with hv | hv
    · rw [addNodes_visited ρ g fuel tick V T node hv] at h
      simp only [Option.some.injEq] at h
      subst h
      exact forest_of_visited hF ((isVisited_iff_mem hF.allTrue node).1 hv)
    · rw [addNodes_unvisited ρ g fuel tick V T node hv] at h
      have hnode : node ∉ GoMap.keys V := by
        intro hmem
        rw [(isVisited_iff_mem hF.allTrue node).2 hmem] at hv
        exact Bool.noConfusion hv
      have hI := forEach_rule
        (fun edge st =>
          if !isVisited st.2.1 edge then
            addNodesToTempGraph ρ g fuel (st.1, st.2.1, (st.2.2.AddEdge node edge).1) edge
          else some st)
        (fun _ => True)
        (fun _ s => Forest (fun _ => False) s.2.1 s.2.2 ∧ node ∈ GoMap.keys s.2.1)
        (fun d e s s' hI _ hb => by
          obtain ⟨hFs, hn⟩ := hI
          obtain ⟨ts, W, Tc⟩ := s
          simp only at hb hFs hn
          rcases Bool.eq_false_or_eq_true (isVisited W e) with hw | hw
          · simp only [hw, Bool.not_true, Bool.false_eq_true, if_false,
              Option.some.injEq] at hb
            subst hb
            exact ⟨hFs, hn⟩
          · simp only [hw, Bool.not_false, if_true] at hb
            have he : e ∉ GoMap.keys W := by
              intro hmem
              rw [(isVisited_iff_mem hFs.allTrue e).2 hmem] at hw
              exact Bool.noConfusion hw
            have hrec := ih ts W (Tc.AddEdge node e).1 e s' hb (forest_addEdge hFs hn he)
            refine ⟨hrec, ?_⟩
            have hmono := (addNodes_grown ρ g fuel ts W _ e s' hb).mono node
              ((isVisited_iff_mem hFs.allTrue node).2 hn)
            exact (isVisited_iff_mem hrec.allTrue node).1 hmono)
        (Node.edges ρ tick (g.node node)) []
        (tick + 1, GoMap.put V node true, T.AddNode node) st'
        (fun _ _ => trivial)
        ⟨forest_enter hF hnode, by
          show node ∈ GoMap.keys (GoMap.put V node true)
          rw [GoMap.keys_put, if_neg hnode]
          simp⟩ h
      exact hI.1

theorem forest_initial : Forest (fun _ : Key => False) ([] : GoMap Key Bool) (NewGraph Key) where
  allTrue := fun _ _ h => absurd h (List.not_mem_nil _)
  src := fun u v h => absurd h (not_edge_NewGraph u v)
  tgt := fun u v h => absurd h (not_edge_NewGraph u v)
  order := fun u v h => absurd h (not_edge_NewGraph u v)
  unique := fun u _ v h => absurd h (not_edge_NewGraph u v)

theorem SubgraphFromTarget_forest (ρ : RangeOrder Key) (g : Graph Key) (target : Key) :
    ∃ V sub, SubgraphFromTarget ρ g target = some sub ∧ Forest (fun _ => False) V sub := by
  obtain ⟨⟨t', V', T'⟩, hst⟩ := addNodes_budget ρ g 0 [] (NewGraph Key) target
  refine ⟨V', T', ?_, addNodes_forest ρ g _ 0 [] (NewGraph Key) target _ hst
    (forest_weaken forest_initial)⟩
  simp only [SubgraphFromTarget, hst]

theorem SubgraphFromTargets_forest (ρ : RangeOrder Key) (g : Graph Key) (targets : List Key) :
    ∃ V sub, SubgraphFromTargets ρ g targets = some sub ∧ Forest (fun _ => False) V sub := by
  obtain ⟨V0, sub0, hsub0, _⟩ := SubgraphFromTargets_grown ρ g targets
  rcases hst : forEach (fun target st => addNodesToTempGraph ρ g g.budget st target) targets
      (0, ([] : GoMap Key Bool), NewGraph Key) with _ | ⟨t', V', T'⟩
  · simp only [SubgraphFromTargets, hst] at hsub0
    exact Option.noConfusion hsub0
  · have hI := forEach_rule
      (fun target st => addNodesToTempGraph ρ g g.budget st target) (fun _ => True)
      (fun _ s => Forest (fun _ => False) s.2.1 s.2.2)
      (fun d e s s' hI _ hb => by
        obtain ⟨ts, W, Tc⟩ := s
        exact addNodes_forest ρ g _ ts W Tc e s' hb (forest_weaken hI))
      targets [] (0, ([] : GoMap Key Bool), NewGraph Key) (t', V', T') (fun _ _ => trivial)
      forest_initial hst
    exact ⟨V', T', by simp only [SubgraphFromTargets, hst], hI⟩

/-- A graph whose edges all increase a rank has no cycle. -/
theorem not_cycleReachable_of_increasing (g : Graph Key) (rank : Key → Nat)
    (h : ∀ u v, g.Edge u v → rank u < rank v) (key : Key) : ¬ g.CycleReachable key := by
  rintro ⟨c, _, hcc⟩
  have hlt : ∀ a b, g.Reachable a b → rank a < rank b := by
    intro a b hab
    induction hab with
    | single hab => exact h _ _ hab
    | tail _ hbc ih => exact lt_trans ih (h _ _ hbc)
  exact lt_irrefl _ (hlt c c hcc)

theorem forest_acyclic {V : GoMap Key Bool} {T : Graph Key}
    (h : Forest (fun _ => False) V T) (key : Key) : ¬ T.CycleReachable key := by
  apply not_cycleReachable_of_increasing T (fun k => (GoMap.keys V).indexOf k)
  intro u v huv
  rcases h.tgt u v huv with h0 | h0
  · exact h.order u v huv h0
  · exact h0.elim

end Graph

end Topsort

/-! ## Claim on `TopSort` of an extracted graph -/

namespace Topsort

namespace Graph

variable {Key : Type} [DecidableEq Key]

theorem TopSort_of_acyclic [ToString Key] (ρ : RangeOrder Key) (g : Graph Key) (k : Key)
    (h : ¬ g.CycleReachable k) : ∃ res, TopSort ρ g k = some (some res, none) := by
  rcases TopSort_cases ρ g k with ⟨c, hc, _⟩ | ⟨t, l, _, htop⟩
  · exact absurd (cycleReachable_of_error ρ g _ k _ c hc) h
  · exact ⟨l, htop⟩

/-- C16: for every graph `G`, cyclic or not, `TopSort(k)` on the graph returned by
`SubgraphFromTargets(ts)` or by `SubgraphFromTarget(t)` never returns a Cycle error, for
every key `k` and all enumeration orders: the returned graph is a forest, no key of it has
two incoming edges and no directed cycle exists in it. -/
theorem Subgraph_TopSort_succeeds [ToString Key] (ρ ρ' : RangeOrder Key) (g : Graph Key)
    (t : Key) (ts : List Key) (k : Key) :
    (∃ sub, SubgraphFromTargets ρ g ts = some sub ∧
      (∀ u u' v, sub.Edge u v → sub.Edge u' v → u = u') ∧
      (∀ x, ¬ sub.CycleReachable x) ∧
      ∃ res, TopSort ρ' sub k = some (some res, none)) ∧
    (∃ sub, SubgraphFromTarget ρ g t = some sub ∧
      (∀ u u' v, sub.Edge u v → sub.Edge u' v → u = u') ∧
      (∀ x, ¬ sub.CycleReachable x) ∧
      ∃ res, TopSort ρ' sub k = some (some res, none)) := by
  constructor
  · obtain ⟨V, sub, hsub, hF⟩ := SubgraphFromTargets_forest ρ g ts
    exact ⟨sub, hsub, hF.unique, forest_acyclic hF,
      TopSort_of_acyclic ρ' sub k (forest_acyclic hF k)⟩
  · obtain ⟨V, sub, hsub, hF⟩ := SubgraphFromTarget_forest ρ g t
    exact ⟨sub, hsub, hF.unique, forest_acyclic hF,
      TopSort_of_acyclic ρ' sub k (forest_acyclic hF k)⟩

end Graph

end Topsort
